import Mathlib

/-!
Verification model of the obsidian-checkbox-sort plugin (src/main.ts).

The document is modelled as a list of lines (strings without embedded
newline characters).  Every JavaScript string operation used by the
plugin (trim, includes, replace, split, join, endsWith, slice) is given
an explicit executable definition over the underlying character list,
and the whole of sortCheckboxesAroundClick is embedded as a pure
function from (global setting, frontmatter entry, document, clicked
line) to an optional single text replacement.
-/

namespace CheckboxSort

/-- Whitespace test modelling the regex class backslash-s of JavaScript,
restricted to the ASCII whitespace characters (space, tab, newline,
carriage return, vertical tab, form feed).  Document lines never contain
the exotic Unicode members of the class, so this restriction is faithful. -/
def isWS (c : Char) : Bool :=
  c == ' ' || c == '\t' || c == '\n' || c == '\r' || c == Char.ofNat 11 || c == Char.ofNat 12

/-- Leading-whitespace depth of a line: length of the match of the
anchored regex of whitespace characters, as in getIndentationLevel. -/
def getIndentationLevel (line : String) : Nat :=
  (line.data.takeWhile isWS).length

/-- Bullet characters accepted by the list-item regex. -/
def isBulletChar (c : Char) : Bool :=
  c == '-' || c == '*' || c == '+'

/-- Test of the list-item regex: optional leading whitespace, a bullet
character, then at least one whitespace character. -/
def listItemTest (line : String) : Bool :=
  match line.data.dropWhile isWS with
  | c :: d :: _ => isBulletChar c && isWS d
  | _ => false

/-- Test of the ticked-checkbox regex: optional leading whitespace, a
bullet character, at least one whitespace character, then the literal
three characters left bracket, x, right bracket.  Greedy matching of
the whitespace run is exact here because a left bracket is not a
whitespace character. -/
def tickedTest (line : String) : Bool :=
  match line.data.dropWhile isWS with
  | c :: rest =>
      isBulletChar c && !(rest.takeWhile isWS).isEmpty &&
        "[x]".data.isPrefixOf (rest.dropWhile isWS)
  | [] => false

/-- JavaScript String.prototype.trim on the character list. -/
def jsTrimData (l : List Char) : List Char :=
  ((l.dropWhile isWS).reverse.dropWhile isWS).reverse

/-- JavaScript String.prototype.trim. -/
def jsTrim (s : String) : String :=
  ⟨jsTrimData s.data⟩

/-- Substring containment on character lists (String.prototype.includes). -/
def containsSubData : List Char → List Char → Bool
  | l, pat =>
    if pat.isPrefixOf l then true
    else
      match l with
      | [] => false
      | _ :: t => containsSubData t pat

/-- JavaScript String.prototype.includes. -/
def containsSub (s pat : String) : Bool :=
  containsSubData s.data pat.data

/-- First-occurrence replacement on character lists, the behaviour of
String.prototype.replace with a string pattern (for nonempty patterns). -/
def jsReplaceFirstData (pat rep : List Char) : List Char → List Char
  | [] => []
  | c :: t =>
    if pat.isPrefixOf (c :: t) then rep ++ (c :: t).drop pat.length
    else c :: jsReplaceFirstData pat rep t

/-- JavaScript String.prototype.replace with a string pattern. -/
def jsReplaceFirst (s pat rep : String) : String :=
  ⟨jsReplaceFirstData pat.data rep.data s.data⟩

/-- Split a character list at every newline character
(String.prototype.split with separator a newline). -/
def splitNLData : List Char → List (List Char)
  | [] => [[]]
  | c :: t =>
    if c = '\n' then [] :: splitNLData t
    else
      match splitNLData t with
      | [] => [[c]]
      | h :: r => (c :: h) :: r

/-- String.prototype.split at newline, on strings. -/
def splitNLStr (s : String) : List String :=
  (splitNLData s.data).map String.mk

/-- Join character lists with newline separators
(Array.prototype.join with a newline separator). -/
def joinNLData : List (List Char) → List Char
  | [] => []
  | [l] => l
  | l :: ls => l ++ '\n' :: joinNLData ls

/-- Array.prototype.join with a newline separator, on strings. -/
def joinNL (ls : List String) : String :=
  ⟨joinNLData (ls.map String.data)⟩

/-- Concatenation of a list of strings (Array.prototype.join with the
empty separator). -/
def strJoin (ls : List String) : String :=
  ls.foldr (fun a b => a ++ b) ""

/-- Last-character test for a newline (String.prototype.endsWith with a
one-character argument). -/
def endsWithNL (s : String) : Bool :=
  s.data.getLast? == some '\n'

/-- Remove the final character (String.prototype.slice with bounds zero
and minus one). -/
def dropLastChar (s : String) : String :=
  ⟨s.data.dropLast⟩

/-- Read a line of the buffer; out-of-range reads give the empty string. -/
def getLine (doc : List String) (i : Nat) : String :=
  doc.getD i ""

/-- The frontmatter entry for the checkbox-sort key: absent (no
frontmatter, no key, or undefined), a well-typed boolean, or a value of
some other type. -/
inductive FMEntry
  | missing
  | boolVal (b : Bool)
  | nonBool
deriving DecidableEq

/-- File-level setting: the frontmatter override replaces the global
default only when the key is present and of boolean type. -/
def fileLevelSortingEnabled (globalDefault : Bool) (fm : FMEntry) : Bool :=
  match fm with
  | .boolVal b => b
  | _ => globalDefault

/-- The literal enable marker. -/
def enableMarker : String := "%%checkbox-sort: true%%"

/-- The literal disable marker. -/
def disableMarker : String := "%%checkbox-sort: false%%"

/-- Decision taken at one line of the upward marker scan: stop with a
verdict, stop without one, or continue.  The scanned line is trimmed
before both the marker containment tests and the list-item test. -/
def markerLineVerdict (t : String) : Option (Option Bool) :=
  if containsSub t enableMarker then some (some true)
  else if containsSub t disableMarker then some (some false)
  else if ¬ listItemTest t then some none
  else none

/-- Upward marker scan from line i down to line 0. -/
def markerScanFrom (doc : List String) : Nat → Option Bool
  | 0 =>
    match markerLineVerdict (jsTrim (getLine doc 0)) with
    | some r => r
    | none => none
  | i + 1 =>
    match markerLineVerdict (jsTrim (getLine doc (i + 1))) with
    | some r => r
    | none => markerScanFrom doc i

/-- Marker scan starting one line above the clicked line. -/
def markerScan (doc : List String) (clicked : Nat) : Option Bool :=
  match clicked with
  | 0 => none
  | c + 1 => markerScanFrom doc c

/-- Effective setting for one click: nearest list marker wins, otherwise
the file-level value (frontmatter override if boolean, else global). -/
def effectiveSortingEnabled (globalDefault : Bool) (fm : FMEntry)
    (doc : List String) (clicked : Nat) : Bool :=
  match markerScan doc clicked with
  | some b => b
  | none => fileLevelSortingEnabled globalDefault fm

/-- Upward scan for the start of the peer block.  The running result is
moved to every scanned line of equal indent; the scan stops at a
non-list line or a line of smaller indent and skips deeper lines. -/
def blockStartFrom (doc : List String) (cur : Nat) : Nat → Nat → Nat
  | 0, bs =>
    if ¬ listItemTest (getLine doc 0) then bs
    else if getIndentationLevel (getLine doc 0) = cur then 0
    else bs
  | i + 1, bs =>
    if ¬ listItemTest (getLine doc (i + 1)) then bs
    else if getIndentationLevel (getLine doc (i + 1)) = cur then
      blockStartFrom doc cur i (i + 1)
    else if getIndentationLevel (getLine doc (i + 1)) < cur then bs
    else blockStartFrom doc cur i bs

/-- Start line of the peer block around the clicked line. -/
def findBlockStart (doc : List String) (cur clicked : Nat) : Nat :=
  match clicked with
  | 0 => 0
  | c + 1 => blockStartFrom doc cur c (c + 1)

/-- Downward scan for the last peer line, walking the given suffix of
the document; the index argument tracks the absolute line number of the
head of the suffix. -/
def blockEndFrom (cur : Nat) : List String → Nat → Nat → Nat
  | [], _, be => be
  | line :: rest, i, be =>
    if ¬ listItemTest line then be
    else if getIndentationLevel line = cur then blockEndFrom cur rest (i + 1) i
    else if getIndentationLevel line < cur then be
    else blockEndFrom cur rest (i + 1) be

/-- Last peer line of the block around the clicked line. -/
def findBlockEnd (doc : List String) (cur clicked : Nat) : Nat :=
  blockEndFrom cur (doc.drop (clicked + 1)) (clicked + 1) clicked

/-- Length of the initial run of lines satisfying p in the given list. -/
def takeWhileLen (p : String → Bool) (l : List String) : Nat :=
  (l.takeWhile p).length

/-- End line of the subtree rooted at peer line i: the run after i of
list items of strictly greater indent than the peer. -/
def subtreeEnd (doc : List String) (peerInd i : Nat) : Nat :=
  i + takeWhileLen
        (fun l => listItemTest l && decide (peerInd < getIndentationLevel l))
        (doc.drop (i + 1))

/-- End line of the whole replaced structure: the run after the last
peer of list items of indent at least the clicked indent. -/
def overallEnd (doc : List String) (cur be : Nat) : Nat :=
  be + takeWhileLen
        (fun l => listItemTest l && decide (cur ≤ getIndentationLevel l))
        (doc.drop (be + 1))

/-- Text of the line range lo..hi, each line followed by a newline
except the final line of the document. -/
def segText (doc : List String) (total lo hi : Nat) : String :=
  strJoin ((List.range' lo (hi + 1 - lo)).map
    (fun k => getLine doc k ++ (if k = total - 1 then "" else "\n")))

/-- Flip of the checkbox marker on one line: first occurrence of the
unchecked token becomes checked when ticking, and conversely. -/
def flipLine (l : String) (nowTicked : Bool) : String :=
  if nowTicked then jsReplaceFirst l "[ ]" "[x]"
  else jsReplaceFirst l "[x]" "[ ]"

/-- The treatment of the clicked subtree text: split at newlines, flip
the marker on the first line, join back. -/
def flipFirstLine (t : String) (nowTicked : Bool) : String :=
  match splitNLStr t with
  | [] => t
  | l :: rest => joinNL (flipLine l nowTicked :: rest)

/-- One collected subtree block: its extracted text and the line number
of its peer line. -/
structure ItemData where
  text : String
  originalLine : Nat
deriving DecidableEq

/-- The peer-processing loop: walk the peers of the block from line i,
extract each subtree as one text block (flipping the clicked line), and
divide the blocks between the unticked and ticked lists in traversal
order.  The loop advances from i to at least i + 1 on every iteration
and stops beyond blockEnd, so it terminates after at most
blockEnd + 1 - i iterations; the gas argument carries that bound so
that the recursion is structural and computable by the kernel. -/
def collectLoopGas (doc : List String) (total cur clicked : Nat)
    (isNowTicked : Bool) (blockEnd : Nat) :
    Nat → Nat → List ItemData × List ItemData
  | 0, _ => ([], [])
  | gas + 1, i =>
    if i ≤ blockEnd then
      if ¬ listItemTest (getLine doc i) ∨ getIndentationLevel (getLine doc i) ≠ cur then
        collectLoopGas doc total cur clicked isNowTicked blockEnd gas (i + 1)
      else
        let rest := collectLoopGas doc total cur clicked isNowTicked blockEnd gas
          (subtreeEnd doc (getIndentationLevel (getLine doc i)) i + 1)
        if (if i = clicked then isNowTicked else tickedTest (getLine doc i)) then
          (rest.1,
           ⟨if i = clicked then
              flipFirstLine (segText doc total i (subtreeEnd doc (getIndentationLevel (getLine doc i)) i)) isNowTicked
            else segText doc total i (subtreeEnd doc (getIndentationLevel (getLine doc i)) i), i⟩ :: rest.2)
        else
          (⟨if i = clicked then
              flipFirstLine (segText doc total i (subtreeEnd doc (getIndentationLevel (getLine doc i)) i)) isNowTicked
            else segText doc total i (subtreeEnd doc (getIndentationLevel (getLine doc i)) i), i⟩ :: rest.1,
           rest.2)
    else ([], [])

/-- The peer-processing loop, started with exactly enough gas. -/
def collectLoop (doc : List String) (total cur clicked : Nat)
    (isNowTicked : Bool) (blockEnd : Nat) (i : Nat) :
    List ItemData × List ItemData :=
  collectLoopGas doc total cur clicked isNowTicked blockEnd (blockEnd + 1 - i) i

/-- Specification-side single traversal: the same control flow as the
peer loop, producing the ordered list of peer spans, each with its start
line, subtree end line and sorting bucket. -/
def peerSpansGas (doc : List String) (cur clicked : Nat)
    (isNowTicked : Bool) (blockEnd : Nat) :
    Nat → Nat → List (Nat × Nat × Bool)
  | 0, _ => []
  | gas + 1, i =>
    if i ≤ blockEnd then
      if ¬ listItemTest (getLine doc i) ∨ getIndentationLevel (getLine doc i) ≠ cur then
        peerSpansGas doc cur clicked isNowTicked blockEnd gas (i + 1)
      else
        (i, subtreeEnd doc (getIndentationLevel (getLine doc i)) i,
         if i = clicked then isNowTicked else tickedTest (getLine doc i)) ::
          peerSpansGas doc cur clicked isNowTicked blockEnd gas
            (subtreeEnd doc (getIndentationLevel (getLine doc i)) i + 1)
    else []

/-- The ordered traversal, started with exactly enough gas. -/
def peerSpans (doc : List String) (cur clicked : Nat)
    (isNowTicked : Bool) (blockEnd : Nat) (i : Nat) :
    List (Nat × Nat × Bool) :=
  peerSpansGas doc cur clicked isNowTicked blockEnd (blockEnd + 1 - i) i

/-- Indent of the clicked line. -/
def curIndentOf (doc : List String) (clicked : Nat) : Nat :=
  getIndentationLevel (getLine doc clicked)

/-- Post-toggle checked state of the clicked line. -/
def isNowTickedOf (doc : List String) (clicked : Nat) : Bool :=
  !tickedTest (getLine doc clicked)

/-- Peer-block start for a click. -/
def blockStartOf (doc : List String) (clicked : Nat) : Nat :=
  findBlockStart doc (curIndentOf doc clicked) clicked

/-- Peer-block end for a click. -/
def blockEndOf (doc : List String) (clicked : Nat) : Nat :=
  findBlockEnd doc (curIndentOf doc clicked) clicked

/-- End of the whole replaced structure for a click. -/
def overallEndOf (doc : List String) (clicked : Nat) : Nat :=
  overallEnd doc (curIndentOf doc clicked) (blockEndOf doc clicked)

/-- The two collected lists for a click. -/
def collectOf (doc : List String) (clicked : Nat) : List ItemData × List ItemData :=
  collectLoop doc doc.length (curIndentOf doc clicked) clicked
    (isNowTickedOf doc clicked) (blockEndOf doc clicked) (blockStartOf doc clicked)

/-- The ordered peer spans for a click. -/
def peerSpansOf (doc : List String) (clicked : Nat) : List (Nat × Nat × Bool) :=
  peerSpans doc (curIndentOf doc clicked) clicked
    (isNowTickedOf doc clicked) (blockEndOf doc clicked) (blockStartOf doc clicked)

/-- Unticked blocks then ticked blocks, concatenated. -/
def finalBlockTextOf (doc : List String) (clicked : Nat) : String :=
  strJoin ((collectOf doc clicked).1.map ItemData.text) ++
    strJoin ((collectOf doc clicked).2.map ItemData.text)

/-- Replacement text after trailing-newline normalization: append a
newline when the text lacks one and is followed by further content,
remove one when the text has one and reaches the end of the document. -/
def textToInsertOf (doc : List String) (clicked : Nat) : String :=
  let total := doc.length
  let oe := overallEndOf doc clicked
  let t0 := finalBlockTextOf doc clicked
  let t1 := if endsWithNL t0 = false ∧ oe < total - 1 then t0 ++ "\n" else t0
  if endsWithNL t1 = true ∧ oe = total - 1 then dropLastChar t1 else t1

/-- Line of the lower bound of the replaced range. -/
def toLineOf (doc : List String) (clicked : Nat) : Nat :=
  if overallEndOf doc clicked = doc.length - 1 then overallEndOf doc clicked
  else overallEndOf doc clicked + 1

/-- Column of the lower bound of the replaced range. -/
def toChOf (doc : List String) (clicked : Nat) : Nat :=
  if overallEndOf doc clicked = doc.length - 1 then
    (getLine doc (overallEndOf doc clicked)).length
  else 0

/-- Buffer text of the range from the start of line fromLine to column
toCh of line toLine (the getRange read of the editor). -/
def getRange0 (doc : List String) (fromLine toLine toCh : Nat) : String :=
  strJoin ((List.range' fromLine (toLine - fromLine)).map
      (fun k => getLine doc k ++ "\n")) ++
    ⟨(getLine doc toLine).data.take toCh⟩

/-- Original text of the replaced range for a click. -/
def originalTextOf (doc : List String) (clicked : Nat) : String :=
  getRange0 doc (blockStartOf doc clicked) (toLineOf doc clicked) (toChOf doc clicked)

/-- One atomic replacement: delete from the start of line fromLine to
column toCh of line toLine and insert the given text. -/
structure SortEdit where
  fromLine : Nat
  toLine : Nat
  toCh : Nat
  text : String
deriving DecidableEq

/-- The whole per-click pipeline of sortCheckboxesAroundClick: resolve
the effective setting, abort when disabled or when the clicked line is
not a list item, build the sorted replacement, and skip the write when
the trimmed new text equals the trimmed original text. -/
def sortCheckboxesAroundClick (globalDefault : Bool) (fm : FMEntry)
    (doc : List String) (clicked : Nat) : Option SortEdit :=
  if ¬ effectiveSortingEnabled globalDefault fm doc clicked then none
  else if ¬ listItemTest (getLine doc clicked) then none
  else if jsTrim (textToInsertOf doc clicked) = jsTrim (originalTextOf doc clicked) then none
  else some ⟨blockStartOf doc clicked, toLineOf doc clicked, toChOf doc clicked,
             textToInsertOf doc clicked⟩

/-- Apply an edit to the document, splitting the inserted text (joined
with whatever remains of the bound line) back into lines. -/
def applyEdit (doc : List String) (e : SortEdit) : List String :=
  doc.take e.fromLine ++
    splitNLStr (e.text ++ ⟨(getLine doc e.toLine).data.drop e.toCh⟩) ++
    doc.drop (e.toLine + 1)

/-- Render a list of lines as text, every line terminated by a newline. -/
def linesToText (ls : List String) : String :=
  strJoin (ls.map (fun l => l ++ "\n"))

/-- The text block the loop builds for one span: the subtree text, with
the first line flipped when the span starts at the clicked line. -/
def spanText (doc : List String) (total clicked : Nat) (nt : Bool)
    (sp : Nat × Nat × Bool) : String :=
  if sp.1 = clicked then flipFirstLine (segText doc total sp.1 sp.2.1) nt
  else segText doc total sp.1 sp.2.1

/-- The document lines of one span, with the checkbox marker of the
clicked peer flipped on its first line. -/
def spanLines (doc : List String) (clicked : Nat) (sp : Nat × Nat × Bool) :
    List String :=
  match (List.range' sp.1 (sp.2.1 + 1 - sp.1)).map (getLine doc) with
  | [] => []
  | l :: rest =>
    (if sp.1 = clicked then flipLine l (isNowTickedOf doc clicked) else l) :: rest

/-- All lines of the spans of one sorting bucket, in original peer
order. -/
def bucketLines (doc : List String) (clicked : Nat) (b : Bool) : List String :=
  (((peerSpansOf doc clicked).filter (fun sp => sp.2.2 = b)).map
    (spanLines doc clicked)).flatten

/-- A well-formed text block: nonempty, not starting with a newline, and
never containing two adjacent newlines. -/
def goodBlock (s : String) : Prop :=
  s.data ≠ [] ∧ s.data.head? ≠ some '\n' ∧
    List.Chain' (fun a b => ¬ (a = '\n' ∧ b = '\n')) s.data

/-- Leading-whitespace run of a character list. -/
def leadData (l : List Char) : List Char :=
  l.takeWhile isWS

/-- Left strip: the list without its leading whitespace run. -/
def stripLData (l : List Char) : List Char :=
  l.dropWhile isWS

/-- Trailing-whitespace run of a character list. -/
def trailData (l : List Char) : List Char :=
  (l.reverse.takeWhile isWS).reverse

/-- Right strip: the list without its trailing whitespace run. -/
def stripRData (l : List Char) : List Char :=
  (l.reverse.dropWhile isWS).reverse

/-- A character list holding at least one non-whitespace character. -/
def hasNonWS (l : List Char) : Prop :=
  ∃ c ∈ l, isWS c = false

/-- Drop one trailing newline when present. -/
def dropTrailNL (s : String) : String :=
  if endsWithNL s = true then dropLastChar s else s

/-- Modelled from the spec: two texts are textually equivalent ignoring
only a possible trailing-newline difference. -/
def eqIgnTrailNL (a b : String) : Prop :=
  dropTrailNL a = dropTrailNL b

/-- The lines of the replaced region read from the document, with the
checkbox marker of the clicked line flipped. -/
def flippedLines (doc : List String) (clicked lo hi : Nat) : List String :=
  (List.range' lo (hi + 1 - lo)).map
    (fun k => if k = clicked then flipLine (getLine doc k) (isNowTickedOf doc clicked)
              else getLine doc k)

/-- The untouched lines of the replaced region. -/
def regionLines (doc : List String) (clicked : Nat) : List String :=
  (List.range' (blockStartOf doc clicked)
    (overallEndOf doc clicked + 1 - blockStartOf doc clicked)).map (getLine doc)

/-- Right strip applied to the final chunk of a list of chunks. -/
def stripRLast : List (List Char) → List (List Char)
  | [] => []
  | [d] => [stripRData d]
  | d :: ds => d :: stripRLast ds

/-- The chunk decomposition of the trim of a newline join: the first
chunk stripped on the left and the last chunk stripped on the right. -/
def trimChunks : List (List Char) → List (List Char)
  | [] => []
  | d :: ds => stripRLast (stripLData d :: ds)

example : getIndentationLevel "  - [ ] a" = 2 := by decide
example : listItemTest "  - [ ] a" = true := by decide
example : listItemTest "-x" = false := by decide
example : tickedTest "- [x] a" = true := by decide
example : tickedTest "- [ ] a" = false := by decide
example : jsTrim "  - a \t" = "- a" := by decide
example : containsSub "ab %%m%% cd" "%%m%%" = true := by decide
example : jsReplaceFirst "- [ ] a [ ]" "[ ]" "[x]" = "- [x] a [ ]" := by decide
example : splitNLStr "a\nb\n" = ["a", "b", ""] := by decide
example : joinNL ["a", "b", ""] = "a\nb\n" := by decide

example :
    sortCheckboxesAroundClick true .missing
        ["- [ ] Buy milk", "- [ ] Get gas", "- [x] Bread"] 0 =
      some ⟨0, 2, 11, "- [ ] Get gas\n- [x] Buy milk\n- [x] Bread"⟩ := by decide

example :
    sortCheckboxesAroundClick true .missing
        ["- [ ] a", "- [x] b", "- [ ] c", "  - [ ] d"] 0 =
      some ⟨0, 3, 9, "- [ ] c\n  - [ ] d- [x] a\n- [x] b"⟩ := by decide

example :
    sortCheckboxesAroundClick true .missing
        ["- [ ] a", "- [x] b", "- [ ] c"] 0 =
      some ⟨0, 2, 7, "- [ ] c- [x] a\n- [x] b"⟩ := by decide

example :
    sortCheckboxesAroundClick true .missing
        ["- [ ] a", "- [x] b", "- [ ] c", "done"] 0 =
      some ⟨0, 3, 0, "- [ ] c\n- [x] a\n- [x] b\n"⟩ := by decide

example :
    sortCheckboxesAroundClick true .missing
        ["- [ ] p", "- [x] q", "- [ ] r"] 0 =
      some ⟨0, 2, 7, "- [ ] r- [x] p\n- [x] q"⟩ := by decide

example :
    applyEdit ["- [ ] Buy milk", "- [ ] Get gas", "- [x] Bread"]
        ⟨0, 2, 11, "- [ ] Get gas\n- [x] Buy milk\n- [x] Bread"⟩ =
      ["- [ ] Get gas", "- [x] Buy milk", "- [x] Bread"] := by decide

theorem strData_append (s t : String) : (s ++ t).data = s.data ++ t.data :=
  String.data_append s t

theorem strEq_of_data {s t : String} (h : s.data = t.data) : s = t :=
  congrArg String.mk h

theorem strJoin_nil : strJoin [] = "" := rfl

theorem strJoin_cons (a : String) (l : List String) :
    strJoin (a :: l) = a ++ strJoin l := rfl

theorem strAppend_assoc (a b c : String) : a ++ b ++ c = a ++ (b ++ c) := by
  apply strEq_of_data; simp [strData_append]

theorem strEmpty_append (a : String) : "" ++ a = a := by
  apply strEq_of_data; simp [strData_append]

theorem strAppend_empty (a : String) : a ++ "" = a := by
  apply strEq_of_data; simp [strData_append]

theorem strJoin_append (l1 l2 : List String) :
    strJoin (l1 ++ l2) = strJoin l1 ++ strJoin l2 := by
  induction l1 with
  | nil => rw [List.nil_append, strJoin_nil, strEmpty_append]
  | cons a t ih => rw [List.cons_append, strJoin_cons, strJoin_cons, ih, strAppend_assoc]

theorem linesToText_nil : linesToText [] = "" := rfl

theorem linesToText_cons (l : String) (ls : List String) :
    linesToText (l :: ls) = (l ++ "\n") ++ linesToText ls := rfl

theorem linesToText_append (l1 l2 : List String) :
    linesToText (l1 ++ l2) = linesToText l1 ++ linesToText l2 := by
  unfold linesToText
  rw [List.map_append, strJoin_append]

theorem linesToText_flatten (ll : List (List String)) :
    linesToText ll.flatten = strJoin (ll.map linesToText) := by
  induction ll with
  | nil => rfl
  | cons a t ih => rw [List.flatten_cons, linesToText_append, ih, List.map_cons, strJoin_cons]

theorem splitNLData_ne_nil (l : List Char) : splitNLData l ≠ [] := by
  induction l with
  | nil => simp [splitNLData]
  | cons c t ih =>
    by_cases hc : c = '\n'
    · simp [splitNLData, hc]
    · simp only [splitNLData, if_neg hc]
      cases h : splitNLData t <;> simp

theorem joinNLData_cons_of_ne_nil (a : List Char) {r : List (List Char)} (h : r ≠ []) :
    joinNLData (a :: r) = a ++ '\n' :: joinNLData r := by
  cases r with
  | nil => exact absurd rfl h
  | cons b s => rfl

theorem joinNLData_splitNLData (l : List Char) : joinNLData (splitNLData l) = l := by
  induction l with
  | nil => rfl
  | cons c t ih =>
    by_cases hc : c = '\n'
    · subst hc
      rw [show splitNLData ('\n' :: t) = [] :: splitNLData t by simp [splitNLData]]
      rw [joinNLData_cons_of_ne_nil [] (splitNLData_ne_nil t), ih, List.nil_append]
    · cases hsp : splitNLData t with
      | nil => exact absurd hsp (splitNLData_ne_nil t)
      | cons h r =>
        rw [show splitNLData (c :: t) = (c :: h) :: r by
              simp only [splitNLData, if_neg hc, hsp]]
        cases r with
        | nil =>
          have : h = t := by rw [hsp] at ih; simpa [joinNLData] using ih
          simp [joinNLData, this]
        | cons r0 rs =>
          rw [hsp] at ih
          rw [joinNLData_cons_of_ne_nil (c :: h) (by simp),
              joinNLData_cons_of_ne_nil h (by simp)] at *
          rw [List.cons_append, ← ih]

theorem splitNLData_no_nl {l : List Char} (h : '\n' ∉ l) : splitNLData l = [l] := by
  induction l with
  | nil => rfl
  | cons c t ih =>
    have hc : c ≠ '\n' := fun e => h (e ▸ List.mem_cons_self c t)
    have ht : '\n' ∉ t := fun m => h (List.mem_cons_of_mem c m)
    simp only [splitNLData, if_neg hc, ih ht]

theorem splitNLData_append {a : List Char} (r : List Char) (h : '\n' ∉ a) :
    splitNLData (a ++ '\n' :: r) = a :: splitNLData r := by
  induction a with
  | nil => simp [splitNLData]
  | cons c t ih =>
    have hc : c ≠ '\n' := fun e => h (e ▸ List.mem_cons_self c t)
    have ht : '\n' ∉ t := fun m => h (List.mem_cons_of_mem c m)
    rw [List.cons_append]
    simp only [splitNLData, if_neg hc, ih ht]

theorem splitNLData_chunks_no_nl (l : List Char) :
    ∀ c ∈ splitNLData l, '\n' ∉ c := by
  induction l with
  | nil =>
    intro c hc
    simp [splitNLData] at hc
    simp [hc]
  | cons x t ih =>
    intro c hc
    by_cases hx : x = '\n'
    · rw [show splitNLData (x :: t) = [] :: splitNLData t by simp [splitNLData, hx]] at hc
      rcases List.mem_cons.mp hc with he | hm
      · simp [he]
      · exact ih c hm
    · cases hsp : splitNLData t with
      | nil => exact absurd hsp (splitNLData_ne_nil t)
      | cons h r =>
        rw [show splitNLData (x :: t) = (x :: h) :: r by
              simp only [splitNLData, if_neg hx, hsp]] at hc
        rcases List.mem_cons.mp hc with he | hm
        · subst he
          intro hmem
          rcases List.mem_cons.mp hmem with he2 | hm2
          · exact hx he2.symm
          · exact ih h (hsp ▸ List.mem_cons_self h r) hm2
        · exact ih c (hsp ▸ List.mem_cons_of_mem h hm)

theorem jsReplaceFirstData_ne_nil {pat rep l : List Char}
    (hl : l ≠ []) (hrep : rep ≠ []) : jsReplaceFirstData pat rep l ≠ [] := by
  cases l with
  | nil => exact absurd rfl hl
  | cons c t =>
    rw [jsReplaceFirstData]
    split
    · simp [hrep]
    · simp

theorem jsReplaceFirstData_no_nl {pat rep : List Char} :
    ∀ {l : List Char}, '\n' ∉ l → '\n' ∉ rep →
      '\n' ∉ jsReplaceFirstData pat rep l := by
  intro l
  induction l with
  | nil => intro _ _; simp [jsReplaceFirstData]
  | cons c t ih =>
    intro hl hrep hm
    rw [jsReplaceFirstData] at hm
    split at hm
    · rcases List.mem_append.mp hm with h1 | h2
      · exact hrep h1
      · exact hl (List.drop_subset _ _ h2)
    · rcases List.mem_cons.mp hm with he | h2
      · exact hl (he ▸ List.mem_cons_self c t)
      · exact ih (fun m => hl (List.mem_cons_of_mem c m)) hrep h2

theorem jsReplaceFirst_data (s pat rep : String) :
    (jsReplaceFirst s pat rep).data = jsReplaceFirstData pat.data rep.data s.data := rfl

theorem flipLine_data_ne_nil {l : String} (h : l.data ≠ []) (b : Bool) :
    (flipLine l b).data ≠ [] := by
  unfold flipLine
  cases b <;>
    simpa [jsReplaceFirst_data] using
      jsReplaceFirstData_ne_nil h (by decide)

theorem flipLine_no_nl {l : String} (h : '\n' ∉ l.data) (b : Bool) :
    '\n' ∉ (flipLine l b).data := by
  unfold flipLine
  cases b <;>
    simpa [jsReplaceFirst_data] using
      jsReplaceFirstData_no_nl h (by decide)

theorem joinNL_data (ls : List String) :
    (joinNL ls).data = joinNLData (ls.map String.data) := rfl

theorem flipFirstLine_eq_of_split {t l0 : String} {rest : List String}
    (h : splitNLStr t = l0 :: rest) (b : Bool) :
    flipFirstLine t b = joinNL (flipLine l0 b :: rest) := by
  unfold flipFirstLine
  rw [h]

theorem mkData_map (cs : List (List Char)) :
    (cs.map String.mk).map String.data = cs := by
  rw [List.map_map]
  exact List.map_id'' (fun x => rfl) cs

theorem flipFirstLine_linesToText {l : String} (ls : List String)
    (hl : '\n' ∉ l.data) (b : Bool) :
    flipFirstLine (linesToText (l :: ls)) b = linesToText (flipLine l b :: ls) := by
  have hdata : (linesToText (l :: ls)).data = l.data ++ '\n' :: (linesToText ls).data := by
    rw [linesToText_cons, strData_append, strData_append]
    simp [List.append_assoc]
  have hstr : splitNLStr (linesToText (l :: ls)) =
      l :: (splitNLData (linesToText ls).data).map String.mk := by
    unfold splitNLStr
    rw [hdata, splitNLData_append _ hl, List.map_cons]
  rw [flipFirstLine_eq_of_split hstr]
  apply strEq_of_data
  rw [joinNL_data, List.map_cons, mkData_map,
      joinNLData_cons_of_ne_nil _ (splitNLData_ne_nil _), joinNLData_splitNLData,
      linesToText_cons, strData_append, strData_append]
  simp [List.append_assoc]

theorem takeWhileLen_le (p : String → Bool) (l : List String) :
    takeWhileLen p l ≤ l.length :=
  (List.takeWhile_sublist p).length_le

theorem takeWhileLen_cons_pos {p : String → Bool} {a : String} (l : List String)
    (h : p a = true) : takeWhileLen p (a :: l) = takeWhileLen p l + 1 := by
  simp [takeWhileLen, List.takeWhile_cons, h]

theorem takeWhileLen_cons_neg {p : String → Bool} {a : String} (l : List String)
    (h : ¬ p a = true) : takeWhileLen p (a :: l) = 0 := by
  simp [takeWhileLen, List.takeWhile_cons, h]

theorem takeWhileLen_prop (p : String → Bool) :
    ∀ (l : List String) (k : Nat), k < takeWhileLen p l → p (l.getD k "") = true := by
  intro l
  induction l with
  | nil => intro k hk; simp [takeWhileLen] at hk
  | cons a t ih =>
    intro k hk
    by_cases hp : p a = true
    · rw [takeWhileLen_cons_pos t hp] at hk
      cases k with
      | zero => simpa using hp
      | succ k' =>
        rw [List.getD_cons_succ]
        exact ih k' (by omega)
    · rw [takeWhileLen_cons_neg t hp] at hk
      omega

theorem takeWhileLen_stop (p : String → Bool) :
    ∀ (l : List String), takeWhileLen p l < l.length →
      p (l.getD (takeWhileLen p l) "") = false := by
  intro l
  induction l with
  | nil => intro h; simp [takeWhileLen] at h
  | cons a t ih =>
    intro h
    by_cases hp : p a = true
    · rw [takeWhileLen_cons_pos t hp] at h ⊢
      rw [List.getD_cons_succ]
      exact ih (by simpa using h)
    · rw [takeWhileLen_cons_neg t hp]
      rw [List.getD_cons_zero]
      exact Bool.not_eq_true _ ▸ hp

theorem takeWhileLen_ge (p : String → Bool) :
    ∀ (l : List String) (m : Nat), m ≤ l.length →
      (∀ k, k < m → p (l.getD k "") = true) → m ≤ takeWhileLen p l := by
  intro l
  induction l with
  | nil =>
    intro m hm _
    have hm0 : m = 0 := by simpa using hm
    subst hm0
    exact Nat.zero_le _
  | cons a t ih =>
    intro m hm hall
    cases m with
    | zero => exact Nat.zero_le _
    | succ m' =>
      have hpa : p a = true := hall 0 (Nat.succ_pos _)
      rw [takeWhileLen_cons_pos t hpa]
      have hm' : m' ≤ takeWhileLen p t := by
        apply ih m' (by simpa using hm)
        intro k hk
        have := hall (k + 1) (Nat.succ_lt_succ hk)
        simpa using this
      omega

theorem getD_drop (doc : List String) (j k : Nat) :
    (doc.drop j).getD k "" = getLine doc (j + k) := by
  unfold getLine
  rw [List.getD_eq_getElem?_getD, List.getD_eq_getElem?_getD, List.getElem?_drop]

theorem subtreeEnd_ge (doc : List String) (pInd i : Nat) : i ≤ subtreeEnd doc pInd i :=
  Nat.le_add_right i _

theorem subtreeEnd_prop (doc : List String) (pInd i : Nat) :
    ∀ k, i + 1 ≤ k → k ≤ subtreeEnd doc pInd i →
      listItemTest (getLine doc k) = true ∧
        pInd < getIndentationLevel (getLine doc k) := by
  intro k h1 h2
  have hk : k - (i + 1) < takeWhileLen
      (fun l => listItemTest l && decide (pInd < getIndentationLevel l))
      (doc.drop (i + 1)) := by
    unfold subtreeEnd at h2; omega
  have hp := takeWhileLen_prop _ _ _ hk
  rw [getD_drop] at hp
  have hkk : i + 1 + (k - (i + 1)) = k := by omega
  rw [hkk] at hp
  simpa [Bool.and_eq_true, decide_eq_true_eq] using hp

theorem subtreeEnd_stop (doc : List String) (pInd i : Nat)
    (h : subtreeEnd doc pInd i + 1 < doc.length) :
    ¬ (listItemTest (getLine doc (subtreeEnd doc pInd i + 1)) = true ∧
        pInd < getIndentationLevel (getLine doc (subtreeEnd doc pInd i + 1))) := by
  have hk : takeWhileLen
      (fun l => listItemTest l && decide (pInd < getIndentationLevel l))
      (doc.drop (i + 1)) < (doc.drop (i + 1)).length := by
    rw [List.length_drop]
    unfold subtreeEnd at h
    omega
  have hp := takeWhileLen_stop _ _ hk
  rw [getD_drop] at hp
  have hkk : i + 1 + takeWhileLen
      (fun l => listItemTest l && decide (pInd < getIndentationLevel l))
      (doc.drop (i + 1)) = subtreeEnd doc pInd i + 1 := by
    unfold subtreeEnd; omega
  rw [hkk] at hp
  intro hcon
  have : (listItemTest (getLine doc (subtreeEnd doc pInd i + 1)) &&
      decide (pInd < getIndentationLevel (getLine doc (subtreeEnd doc pInd i + 1)))) = true := by
    simp [Bool.and_eq_true, decide_eq_true_eq, hcon.1, hcon.2]
  rw [this] at hp
  exact absurd hp (by simp)

theorem subtreeEnd_lt_length (doc : List String) (pInd i : Nat) (h : i < doc.length) :
    subtreeEnd doc pInd i < doc.length := by
  unfold subtreeEnd
  have := takeWhileLen_le
    (fun l => listItemTest l && decide (pInd < getIndentationLevel l))
    (doc.drop (i + 1))
  rw [List.length_drop] at this
  omega

theorem blockEnd_le_overallEnd (doc : List String) (cur be : Nat) :
    be ≤ overallEnd doc cur be :=
  Nat.le_add_right be _

theorem subtreeEnd_le_overallEnd (doc : List String) (cur : Nat) {i be : Nat}
    (hib : i ≤ be) : subtreeEnd doc cur i ≤ overallEnd doc cur be := by
  by_cases hle : subtreeEnd doc cur i ≤ be
  · exact le_trans hle (blockEnd_le_overallEnd doc cur be)
  · push_neg at hle
    have hi_lt : i < doc.length := by
      by_contra hni
      push_neg at hni
      have hdrop : doc.drop (i + 1) = [] := List.drop_of_length_le (by omega)
      have : subtreeEnd doc cur i = i := by
        unfold subtreeEnd; rw [hdrop]; simp [takeWhileLen]
      omega
    have he_lt : subtreeEnd doc cur i < doc.length := subtreeEnd_lt_length doc cur i hi_lt
    unfold overallEnd
    have hge : subtreeEnd doc cur i - be ≤ takeWhileLen
        (fun l => listItemTest l && decide (cur ≤ getIndentationLevel l))
        (doc.drop (be + 1)) := by
      apply takeWhileLen_ge
      · rw [List.length_drop]; omega
      · intro k hk
        have hPP := subtreeEnd_prop doc cur i (be + 1 + k) (by omega) (by omega)
        rw [getD_drop]
        simp only [Bool.and_eq_true, decide_eq_true_eq]
        exact ⟨hPP.1, le_of_lt hPP.2⟩
    omega

theorem overallEnd_prop (doc : List String) (cur be : Nat) :
    ∀ k, be + 1 ≤ k → k ≤ overallEnd doc cur be →
      listItemTest (getLine doc k) = true ∧
        cur ≤ getIndentationLevel (getLine doc k) := by
  intro k h1 h2
  have hk : k - (be + 1) < takeWhileLen
      (fun l => listItemTest l && decide (cur ≤ getIndentationLevel l))
      (doc.drop (be + 1)) := by
    unfold overallEnd at h2; omega
  have hp := takeWhileLen_prop _ _ _ hk
  rw [getD_drop] at hp
  have hkk : be + 1 + (k - (be + 1)) = k := by omega
  rw [hkk] at hp
  simpa [Bool.and_eq_true, decide_eq_true_eq] using hp

theorem overallEnd_lt_length (doc : List String) (cur be : Nat) (h : be < doc.length) :
    overallEnd doc cur be < doc.length := by
  unfold overallEnd
  have := takeWhileLen_le
    (fun l => listItemTest l && decide (cur ≤ getIndentationLevel l))
    (doc.drop (be + 1))
  rw [List.length_drop] at this
  omega

theorem blockStartFrom_le (doc : List String) (cur : Nat) :
    ∀ i bs, blockStartFrom doc cur i bs ≤ i ∨ blockStartFrom doc cur i bs = bs := by
  intro i
  induction i with
  | zero =>
    intro bs
    unfold blockStartFrom
    split
    · right; rfl
    · split
      · left; exact Nat.le_refl 0
      · right; rfl
  | succ i' ih =>
    intro bs
    unfold blockStartFrom
    split
    · right; rfl
    · split
      · rcases ih (i' + 1) with h | h
        · left; omega
        · left; omega
      · split
        · right; rfl
        · rcases ih bs with h | h
          · left; omega
          · right; exact h

theorem blockStartFrom_peer (doc : List String) (cur : Nat) :
    ∀ i bs, blockStartFrom doc cur i bs = bs ∨
      (listItemTest (getLine doc (blockStartFrom doc cur i bs)) = true ∧
        getIndentationLevel (getLine doc (blockStartFrom doc cur i bs)) = cur) := by
  intro i
  induction i with
  | zero =>
    intro bs
    unfold blockStartFrom
    split
    · left; rfl
    · rename_i hlist
      split
      · rename_i hind
        right
        rw [not_not] at hlist
        exact ⟨hlist, hind⟩
      · left; rfl
  | succ i' ih =>
    intro bs
    unfold blockStartFrom
    split
    · left; rfl
    · rename_i hlist
      rw [not_not] at hlist
      split
      · rename_i hind
        rcases ih (i' + 1) with h | h
        · rw [h]; right; exact ⟨hlist, hind⟩
        · right; exact h
      · split
        · left; rfl
        · exact ih bs

theorem findBlockStart_le (doc : List String) (cur clicked : Nat) :
    findBlockStart doc cur clicked ≤ clicked := by
  cases clicked with
  | zero => simp [findBlockStart]
  | succ c =>
    have h := blockStartFrom_le doc cur c (c + 1)
    simp only [findBlockStart]
    omega

theorem blockStartOf_peer (doc : List String) (clicked : Nat)
    (h : listItemTest (getLine doc clicked) = true) :
    listItemTest (getLine doc (blockStartOf doc clicked)) = true ∧
      getIndentationLevel (getLine doc (blockStartOf doc clicked)) =
        curIndentOf doc clicked := by
  unfold blockStartOf
  cases clicked with
  | zero => simp only [findBlockStart]; exact ⟨h, rfl⟩
  | succ c =>
    simp only [findBlockStart]
    rcases blockStartFrom_peer doc (curIndentOf doc (c + 1)) c (c + 1) with he | hp
    · rw [he]; exact ⟨h, rfl⟩
    · exact hp

theorem blockEndFrom_ge (cur : Nat) :
    ∀ (l : List String) (i be : Nat), be ≤ i → be ≤ blockEndFrom cur l i be := by
  intro l
  induction l with
  | nil => intro i be _; exact Nat.le_refl be
  | cons a t ih =>
    intro i be hbi
    unfold blockEndFrom
    split
    · exact Nat.le_refl be
    · split
      · exact le_trans (le_trans hbi (Nat.le_refl i)) (ih (i + 1) i (by omega))
      · split
        · exact Nat.le_refl be
        · exact ih (i + 1) be (by omega)

theorem blockEndOf_ge (doc : List String) (clicked : Nat) :
    clicked ≤ blockEndOf doc clicked := by
  unfold blockEndOf findBlockEnd
  exact blockEndFrom_ge _ _ _ _ (by omega)

theorem peerSpansGas_cons (doc : List String) (cur clicked : Nat) (nt : Bool)
    (be gas i : Nat) (hle : i ≤ be)
    (hlist : listItemTest (getLine doc i) = true)
    (hind : getIndentationLevel (getLine doc i) = cur) :
    peerSpansGas doc cur clicked nt be (gas + 1) i =
      (i, subtreeEnd doc (getIndentationLevel (getLine doc i)) i,
        if i = clicked then nt else tickedTest (getLine doc i)) ::
        peerSpansGas doc cur clicked nt be gas
          (subtreeEnd doc (getIndentationLevel (getLine doc i)) i + 1) := by
  rw [peerSpansGas, if_pos hle, if_neg (by simp [hlist, hind])]

/-- The two lists the loop accumulates are the stable two-bucket
partition of the ordered traversal: filter the span list by bucket and
build each text block. -/
theorem collectLoopGas_eq_spansGas (doc : List String) (total cur clicked : Nat)
    (nt : Bool) (be : Nat) :
    ∀ (gas i : Nat),
      collectLoopGas doc total cur clicked nt be gas i =
        (((peerSpansGas doc cur clicked nt be gas i).filter
            (fun sp => sp.2.2 = false)).map
          (fun sp => ⟨spanText doc total clicked nt sp, sp.1⟩),
         ((peerSpansGas doc cur clicked nt be gas i).filter
            (fun sp => sp.2.2 = true)).map
          (fun sp => ⟨spanText doc total clicked nt sp, sp.1⟩)) := by
  intro gas
  induction gas with
  | zero => intro i; rfl
  | succ gas ih =>
    intro i
    rw [collectLoopGas, peerSpansGas]
    by_cases hle : i ≤ be
    · rw [if_pos hle, if_pos hle]
      by_cases hskip : ¬ listItemTest (getLine doc i) = true ∨
          getIndentationLevel (getLine doc i) ≠ cur
      · rw [if_pos hskip, if_pos hskip, ih]
      · rw [if_neg hskip, if_neg hskip, ih]
        by_cases htick : (if i = clicked then nt else tickedTest (getLine doc i)) = true
        · rw [if_pos htick]
          simp only [List.filter_cons, htick, List.map_cons, spanText]
          simp
        · rw [if_neg htick]
          have htick' : (if i = clicked then nt else tickedTest (getLine doc i)) = false :=
            Bool.not_eq_true _ ▸ htick
          simp only [List.filter_cons, htick', List.map_cons, spanText]
          simp
    · rw [if_neg hle, if_neg hle]
      rfl

theorem peerSpansGas_wf (doc : List String) (cur clicked : Nat) (nt : Bool) (be : Nat) :
    ∀ (gas i : Nat), ∀ sp ∈ peerSpansGas doc cur clicked nt be gas i,
      i ≤ sp.1 ∧ sp.1 ≤ be ∧
        listItemTest (getLine doc sp.1) = true ∧
        getIndentationLevel (getLine doc sp.1) = cur ∧
        sp.2.1 = subtreeEnd doc cur sp.1 := by
  intro gas
  induction gas with
  | zero => intro i sp hsp; simp [peerSpansGas] at hsp
  | succ gas ih =>
    intro i sp hsp
    rw [peerSpansGas] at hsp
    by_cases hle : i ≤ be
    · rw [if_pos hle] at hsp
      by_cases hskip : ¬ listItemTest (getLine doc i) = true ∨
          getIndentationLevel (getLine doc i) ≠ cur
      · rw [if_pos hskip] at hsp
        have h := ih (i + 1) sp hsp
        exact ⟨by omega, h.2⟩
      · rw [if_neg hskip] at hsp
        push_neg at hskip
        rcases List.mem_cons.mp hsp with he | hm
        · subst he
          refine ⟨Nat.le_refl _, hle, hskip.1, hskip.2, ?_⟩
          simp only [hskip.2]
        · have h := ih _ sp hm
          have hge := subtreeEnd_ge doc (getIndentationLevel (getLine doc i)) i
          exact ⟨by omega, h.2⟩
    · rw [if_neg hle] at hsp
      simp at hsp

theorem peerSpansOf_wf (doc : List String) (clicked : Nat) :
    ∀ sp ∈ peerSpansOf doc clicked,
      blockStartOf doc clicked ≤ sp.1 ∧ sp.1 ≤ blockEndOf doc clicked ∧
        listItemTest (getLine doc sp.1) = true ∧
        getIndentationLevel (getLine doc sp.1) = curIndentOf doc clicked ∧
        sp.2.1 = subtreeEnd doc (curIndentOf doc clicked) sp.1 ∧
        sp.2.1 ≤ overallEndOf doc clicked := by
  intro sp hsp
  have h := peerSpansGas_wf doc (curIndentOf doc clicked) clicked
    (isNowTickedOf doc clicked) (blockEndOf doc clicked) _ _ sp hsp
  refine ⟨h.1, h.2.1, h.2.2.1, h.2.2.2.1, h.2.2.2.2, ?_⟩
  rw [h.2.2.2.2]
  exact subtreeEnd_le_overallEnd doc (curIndentOf doc clicked) h.2.1

theorem peerSpansOf_head (doc : List String) (clicked : Nat)
    (h : listItemTest (getLine doc clicked) = true) :
    ∃ rest, peerSpansOf doc clicked =
      (blockStartOf doc clicked,
        subtreeEnd doc (getIndentationLevel (getLine doc (blockStartOf doc clicked)))
          (blockStartOf doc clicked),
        if blockStartOf doc clicked = clicked then isNowTickedOf doc clicked
        else tickedTest (getLine doc (blockStartOf doc clicked))) :: rest := by
  have hbs := blockStartOf_peer doc clicked h
  have hle : blockStartOf doc clicked ≤ blockEndOf doc clicked :=
    le_trans (findBlockStart_le doc (curIndentOf doc clicked) clicked)
      (blockEndOf_ge doc clicked)
  unfold peerSpansOf peerSpans
  obtain ⟨g, hg⟩ : ∃ g, blockEndOf doc clicked + 1 - blockStartOf doc clicked = g + 1 :=
    ⟨blockEndOf doc clicked - blockStartOf doc clicked, by omega⟩
  rw [hg, peerSpansGas_cons doc _ clicked _ _ g _ hle hbs.1 hbs.2]
  exact ⟨_, rfl⟩

theorem listItem_data_ne_nil {l : String} (h : listItemTest l = true) :
    l.data ≠ [] := by
  intro he
  unfold listItemTest at h
  rw [he] at h
  simp at h

theorem getLine_no_nl (doc : List String) (hNL : ∀ l ∈ doc, '\n' ∉ l.data)
    (k : Nat) : '\n' ∉ (getLine doc k).data := by
  unfold getLine
  by_cases h : k < doc.length
  · rw [List.getD_eq_getElem?_getD, List.getElem?_eq_getElem h]
    exact hNL _ (List.getElem_mem h)
  · rw [List.getD_eq_default _ _ (by omega)]
    simp

theorem segText_eq_linesToText (doc : List String) (total lo hi : Nat)
    (h : hi + 1 < total) :
    segText doc total lo hi =
      linesToText ((List.range' lo (hi + 1 - lo)).map (getLine doc)) := by
  unfold segText linesToText
  rw [List.map_map]
  congr 1
  apply List.map_congr_left
  intro k hk
  have hk' := List.mem_range'_1.mp hk
  have hne : k ≠ total - 1 := by omega
  simp [hne]

theorem range'_map_cons (doc : List String) (s e : Nat) (hse : s ≤ e) :
    (List.range' s (e + 1 - s)).map (getLine doc) =
      getLine doc s :: (List.range' (s + 1) (e - s)).map (getLine doc) := by
  have : e + 1 - s = (e - s) + 1 := by omega
  rw [this, List.range'_succ, List.map_cons]

theorem spanLines_eq (doc : List String) (clicked : Nat) (sp : Nat × Nat × Bool)
    (hse : sp.1 ≤ sp.2.1) :
    spanLines doc clicked sp =
      (if sp.1 = clicked then
        flipLine (getLine doc sp.1) (isNowTickedOf doc clicked)
       else getLine doc sp.1) ::
        (List.range' (sp.1 + 1) (sp.2.1 - sp.1)).map (getLine doc) := by
  unfold spanLines
  rw [range'_map_cons doc sp.1 sp.2.1 hse]

theorem spanText_eq_linesToText (doc : List String) (clicked : Nat)
    (hNL : ∀ l ∈ doc, '\n' ∉ l.data) (sp : Nat × Nat × Bool)
    (hse : sp.1 ≤ sp.2.1) (hlt : sp.2.1 + 1 < doc.length) :
    spanText doc doc.length clicked (isNowTickedOf doc clicked) sp =
      linesToText (spanLines doc clicked sp) := by
  have hseg := segText_eq_linesToText doc doc.length sp.1 sp.2.1 hlt
  have hcons := range'_map_cons doc sp.1 sp.2.1 hse
  rw [spanLines_eq doc clicked sp hse]
  unfold spanText
  by_cases hc : sp.1 = clicked
  · rw [if_pos hc, if_pos hc, hseg, hcons,
        flipFirstLine_linesToText _ (getLine_no_nl doc hNL sp.1)]
  · rw [if_neg hc, if_neg hc, hseg, hcons]

theorem chainNN_of_no_nl {l : List Char} (h : '\n' ∉ l) :
    List.Chain' (fun a b => ¬ (a = '\n' ∧ b = '\n')) l := by
  induction l with
  | nil => simp
  | cons c t ih =>
    rw [List.chain'_cons']
    refine ⟨?_, ih (fun m => h (List.mem_cons_of_mem c m))⟩
    intro y _ hcon
    exact h (hcon.1 ▸ List.mem_cons_self c t)

theorem goodBlock_append {a b : String} (ha : goodBlock a) (hb : goodBlock b) :
    goodBlock (a ++ b) := by
  obtain ⟨ha1, ha2, ha3⟩ := ha
  obtain ⟨hb1, hb2, hb3⟩ := hb
  refine ⟨?_, ?_, ?_⟩
  · rw [strData_append]; simp [ha1]
  · rw [strData_append]
    cases hd : a.data with
    | nil => exact absurd hd ha1
    | cons c t =>
      rw [List.cons_append, List.head?_cons]
      rw [hd, List.head?_cons] at ha2
      exact ha2
  · rw [strData_append, List.chain'_append]
    refine ⟨ha3, hb3, ?_⟩
    intro x _ y hy hcon
    exact hb2 (hcon.2 ▸ Option.mem_def.mp hy)

theorem goodBlock_of_line {l : String} (h1 : l.data ≠ []) (h2 : '\n' ∉ l.data) :
    goodBlock l := by
  refine ⟨h1, ?_, chainNN_of_no_nl h2⟩
  cases hd : l.data with
  | nil => exact absurd hd h1
  | cons c t =>
    rw [List.head?_cons]
    intro he
    injection he with he
    exact h2 (hd ▸ (he ▸ List.mem_cons_self c t))

theorem goodBlock_line_newline {l : String} (h1 : l.data ≠ []) (h2 : '\n' ∉ l.data) :
    goodBlock (l ++ "\n") := by
  refine ⟨?_, ?_, ?_⟩
  · rw [strData_append]; simp [h1]
  · rw [strData_append]
    cases hd : l.data with
    | nil => exact absurd hd h1
    | cons c t =>
      rw [List.cons_append, List.head?_cons]
      intro he
      injection he with he
      exact h2 (hd ▸ (he ▸ List.mem_cons_self c t))
  · rw [strData_append, List.chain'_append]
    refine ⟨chainNN_of_no_nl h2, by simp, ?_⟩
    intro x hx y _ hcon
    exact h2 (hcon.1 ▸ List.mem_of_mem_getLast? (Option.mem_def.mp hx))

theorem goodBlock_strJoin : ∀ (ls : List String), ls ≠ [] →
    (∀ s ∈ ls, goodBlock s) → goodBlock (strJoin ls) := by
  intro ls
  induction ls with
  | nil => intro h _; exact absurd rfl h
  | cons a t ih =>
    intro _ hall
    cases t with
    | nil =>
      rw [strJoin_cons, strJoin_nil, strAppend_empty]
      exact hall a (List.mem_cons_self a [])
    | cons b r =>
      rw [strJoin_cons]
      exact goodBlock_append (hall a (by simp))
        (ih (by simp) (fun s hs => hall s (List.mem_cons_of_mem a hs)))

theorem goodBlock_segText (doc : List String) (total lo hi : Nat)
    (hNL : ∀ l ∈ doc, '\n' ∉ l.data) (hle : lo ≤ hi)
    (hitems : ∀ k, lo ≤ k → k ≤ hi → listItemTest (getLine doc k) = true) :
    goodBlock (segText doc total lo hi) := by
  unfold segText
  apply goodBlock_strJoin
  · intro hmap
    rw [List.map_eq_nil_iff, List.range'_eq_nil] at hmap
    omega
  · intro s hs
    rcases List.mem_map.mp hs with ⟨k, hk, rfl⟩
    have hk' := List.mem_range'_1.mp hk
    have hitem := hitems k (by omega) (by omega)
    have h1 := listItem_data_ne_nil hitem
    have h2 := getLine_no_nl doc hNL k
    by_cases hke : k = total - 1
    · rw [if_pos hke, strAppend_empty]
      exact goodBlock_of_line h1 h2
    · rw [if_neg hke]
      exact goodBlock_line_newline h1 h2

theorem flipFirstLine_decomp {t : String} (h1 : t.data ≠ [])
    (h2 : t.data.head? ≠ some '\n') (b : Bool) :
    ∃ (l0 : String) (suffix : List Char),
      t.data = l0.data ++ suffix ∧ l0.data ≠ [] ∧ '\n' ∉ l0.data ∧
        (flipFirstLine t b).data = (flipLine l0 b).data ++ suffix := by
  cases hd : t.data with
  | nil => exact absurd hd h1
  | cons x t' =>
    have hx : x ≠ '\n' := by
      intro he
      apply h2
      rw [hd, List.head?_cons, he]
    cases hsp : splitNLData t' with
    | nil => exact absurd hsp (splitNLData_ne_nil t')
    | cons hc r =>
      have hsplit : splitNLData t.data = (x :: hc) :: r := by
        rw [hd]
        simp only [splitNLData, if_neg hx, hsp]
      have hstr : splitNLStr t = String.mk (x :: hc) :: r.map String.mk := by
        unfold splitNLStr
        rw [hsplit, List.map_cons]
      have hnonl : '\n' ∉ (String.mk (x :: hc)).data := by
        intro hm
        rcases List.mem_cons.mp hm with he | hm2
        · exact hx he.symm
        · exact splitNLData_chunks_no_nl t' hc (hsp ▸ List.mem_cons_self hc r) hm2
      have hdt : t.data = x :: t' := hd
      cases r with
      | nil =>
        have ht' : t' = hc := by
          have hj := joinNLData_splitNLData t'
          rw [hsp] at hj
          simpa [joinNLData] using hj.symm
        refine ⟨String.mk (x :: hc), [], ?_, by simp, hnonl, ?_⟩
        · rw [ht']; simp
        · rw [flipFirstLine_eq_of_split hstr, joinNL_data]
          simp [joinNLData]
      | cons r0 rs =>
        have ht' : t' = hc ++ '\n' :: joinNLData (r0 :: rs) := by
          have hj := joinNLData_splitNLData t'
          rw [hsp, joinNLData_cons_of_ne_nil _ (by simp)] at hj
          exact hj.symm
        refine ⟨String.mk (x :: hc), '\n' :: joinNLData (r0 :: rs), ?_, by simp, hnonl, ?_⟩
        · rw [ht']; simp
        · rw [flipFirstLine_eq_of_split hstr, joinNL_data, List.map_cons, mkData_map,
              joinNLData_cons_of_ne_nil _ (by simp)]

theorem goodBlock_flipFirstLine {t : String} (hg : goodBlock t) (b : Bool) :
    goodBlock (flipFirstLine t b) := by
  obtain ⟨h1, h2, h3⟩ := hg
  obtain ⟨l0, suffix, hdecomp, hl0ne, hl0nl, hflip⟩ := flipFirstLine_decomp h1 h2 b
  have hfl1 : (flipLine l0 b).data ≠ [] := flipLine_data_ne_nil hl0ne b
  have hfl2 : '\n' ∉ (flipLine l0 b).data := flipLine_no_nl hl0nl b
  refine ⟨?_, ?_, ?_⟩
  · rw [hflip]; simp [hfl1]
  · rw [hflip]
    cases hfd : (flipLine l0 b).data with
    | nil => exact absurd hfd hfl1
    | cons c cs =>
      rw [List.cons_append, List.head?_cons]
      intro he
      injection he with he
      exact hfl2 (hfd ▸ (he ▸ List.mem_cons_self c cs))
  · rw [hflip, List.chain'_append]
    refine ⟨chainNN_of_no_nl hfl2, ?_, ?_⟩
    · rw [hdecomp, List.chain'_append] at h3
      exact h3.2.1
    · intro x hx y _ hcon
      exact hfl2 (hcon.1 ▸ List.mem_of_mem_getLast? (Option.mem_def.mp hx))

theorem linesToText_concat (ls : List String) (a : String) :
    linesToText (ls ++ [a]) = linesToText ls ++ (a ++ "\n") := by
  rw [linesToText_append]
  unfold linesToText
  rw [List.map_cons, List.map_nil, strJoin_cons, strJoin_nil, strAppend_empty]

theorem linesToText_endsNL (ls : List String) (h : ls ≠ []) :
    (linesToText ls).data.getLast? = some '\n' := by
  rcases List.eq_nil_or_concat ls with he | ⟨l', a, hc⟩
  · exact absurd he h
  · rw [List.concat_eq_append] at hc
    subst hc
    rw [linesToText_concat, strData_append, strData_append]
    rw [show "\n".data = ['\n'] from rfl, ← List.append_assoc]
    exact List.getLast?_concat _

theorem linesToText_one_newline (ls : List String) (h : ls ≠ [])
    (hne : ∀ l ∈ ls, l.data ≠ []) (hNL : ∀ l ∈ ls, '\n' ∉ l.data) :
    ((linesToText ls).data.dropLast).getLast? ≠ some '\n' := by
  rcases List.eq_nil_or_concat ls with he | ⟨l', a, hc⟩
  · exact absurd he h
  · rw [List.concat_eq_append] at hc
    subst hc
    rw [linesToText_concat, strData_append, strData_append]
    rw [show "\n".data = ['\n'] from rfl, ← List.append_assoc, List.dropLast_concat]
    have hane : a.data ≠ [] := hne a (by simp)
    have hanl : '\n' ∉ a.data := hNL a (by simp)
    rw [List.getLast?_append_of_ne_nil (linesToText l').data hane]
    intro he2
    exact hanl (List.mem_of_mem_getLast? (Option.mem_def.mp he2))

theorem sort_some {g : Bool} {fm : FMEntry} {doc : List String} {clicked : Nat}
    {e : SortEdit} (h : sortCheckboxesAroundClick g fm doc clicked = some e) :
    e.text = textToInsertOf doc clicked ∧
      listItemTest (getLine doc clicked) = true := by
  unfold sortCheckboxesAroundClick at h
  split at h
  · exact absurd h (by simp)
  · split at h
    · exact absurd h (by simp)
    · rename_i hnl
      split at h
      · exact absurd h (by simp)
      · injection h with h
        subst h
        rw [not_not] at hnl
        exact ⟨rfl, hnl⟩

theorem collectOf_eq (doc : List String) (clicked : Nat) :
    collectOf doc clicked =
      (((peerSpansOf doc clicked).filter (fun sp => sp.2.2 = false)).map
        (fun sp => ⟨spanText doc doc.length clicked (isNowTickedOf doc clicked) sp, sp.1⟩),
       ((peerSpansOf doc clicked).filter (fun sp => sp.2.2 = true)).map
        (fun sp => ⟨spanText doc doc.length clicked (isNowTickedOf doc clicked) sp, sp.1⟩)) :=
  collectLoopGas_eq_spansGas doc doc.length (curIndentOf doc clicked) clicked
    (isNowTickedOf doc clicked) (blockEndOf doc clicked) _ _

theorem peerSpansOf_span_facts (doc : List String) (clicked : Nat)
    (sp : Nat × Nat × Bool) (hsp : sp ∈ peerSpansOf doc clicked) :
    sp.1 ≤ sp.2.1 ∧
      (∀ k, sp.1 ≤ k → k ≤ sp.2.1 → listItemTest (getLine doc k) = true) ∧
      sp.2.1 ≤ overallEndOf doc clicked := by
  obtain ⟨hbs, hbe, hlist, hind, hsub, hoe⟩ := peerSpansOf_wf doc clicked sp hsp
  have hge : sp.1 ≤ sp.2.1 := by rw [hsub]; exact subtreeEnd_ge _ _ _
  refine ⟨hge, ?_, hoe⟩
  intro k hk1 hk2
  by_cases hks : k = sp.1
  · rw [hks]; exact hlist
  · rw [hsub] at hk2
    exact (subtreeEnd_prop doc _ sp.1 k (by omega) hk2).1

theorem finalBlockTextOf_goodBlock (doc : List String) (clicked : Nat)
    (hNL : ∀ l ∈ doc, '\n' ∉ l.data)
    (hclick : listItemTest (getLine doc clicked) = true) :
    goodBlock (finalBlockTextOf doc clicked) := by
  unfold finalBlockTextOf
  rw [collectOf_eq]
  show goodBlock
    (strJoin ((((peerSpansOf doc clicked).filter (fun sp => sp.2.2 = false)).map _).map ItemData.text) ++
     strJoin ((((peerSpansOf doc clicked).filter (fun sp => sp.2.2 = true)).map _).map ItemData.text))
  rw [← strJoin_append, ← List.map_append, ← List.map_append]
  apply goodBlock_strJoin
  · intro hmap
    rw [List.map_eq_nil_iff, List.map_eq_nil_iff, List.append_eq_nil] at hmap
    obtain ⟨rest, hhead⟩ := peerSpansOf_head doc clicked hclick
    obtain ⟨sp0, hmem⟩ : ∃ sp, sp ∈ peerSpansOf doc clicked := by
      rw [hhead]; exact ⟨_, List.mem_cons_self _ _⟩
    cases hb : sp0.2.2
    · have : sp0 ∈ (peerSpansOf doc clicked).filter (fun sp => sp.2.2 = false) :=
        List.mem_filter.mpr ⟨hmem, by simp [hb]⟩
      rw [hmap.1] at this
      simp at this
    · have : sp0 ∈ (peerSpansOf doc clicked).filter (fun sp => sp.2.2 = true) :=
        List.mem_filter.mpr ⟨hmem, by simp [hb]⟩
      rw [hmap.2] at this
      simp at this
  · intro s hs
    rcases List.mem_map.mp hs with ⟨item, hitem, rfl⟩
    rcases List.mem_map.mp hitem with ⟨sp, hspf, rfl⟩
    have hsp : sp ∈ peerSpansOf doc clicked := by
      rcases List.mem_append.mp hspf with h | h
      · exact List.mem_of_mem_filter h
      · exact List.mem_of_mem_filter h
    obtain ⟨hse, hitems, _⟩ := peerSpansOf_span_facts doc clicked sp hsp
    have hseg : goodBlock (segText doc doc.length sp.1 sp.2.1) :=
      goodBlock_segText doc doc.length sp.1 sp.2.1 hNL hse hitems
    show goodBlock (spanText doc doc.length clicked (isNowTickedOf doc clicked) sp)
    unfold spanText
    by_cases hc : sp.1 = clicked
    · rw [if_pos hc]
      exact goodBlock_flipFirstLine hseg _
    · rw [if_neg hc]
      exact hseg

theorem bucketLines_mem_facts (doc : List String) (clicked : Nat)
    (hNL : ∀ l ∈ doc, '\n' ∉ l.data) (b : Bool) :
    ∀ l ∈ bucketLines doc clicked b, l.data ≠ [] ∧ '\n' ∉ l.data := by
  intro l hl
  unfold bucketLines at hl
  rcases List.mem_flatten.mp hl with ⟨lines, hlines, hlmem⟩
  rcases List.mem_map.mp hlines with ⟨sp, hspf, rfl⟩
  have hsp := List.mem_of_mem_filter hspf
  obtain ⟨hse, hitems, _⟩ := peerSpansOf_span_facts doc clicked sp hsp
  rw [spanLines_eq doc clicked sp hse] at hlmem
  rcases List.mem_cons.mp hlmem with he | hm
  · subst he
    by_cases hc : sp.1 = clicked
    · rw [if_pos hc]
      exact ⟨flipLine_data_ne_nil (listItem_data_ne_nil (hitems sp.1 (Nat.le_refl _) hse)) _,
        flipLine_no_nl (getLine_no_nl doc hNL sp.1) _⟩
    · rw [if_neg hc]
      exact ⟨listItem_data_ne_nil (hitems sp.1 (Nat.le_refl _) hse),
        getLine_no_nl doc hNL sp.1⟩
  · rcases List.mem_map.mp hm with ⟨k, hk, rfl⟩
    have hk' := List.mem_range'_1.mp hk
    exact ⟨listItem_data_ne_nil (hitems k (by omega) (by omega)),
      getLine_no_nl doc hNL k⟩

theorem allLines_mem_facts (doc : List String) (clicked : Nat)
    (hNL : ∀ l ∈ doc, '\n' ∉ l.data) :
    ∀ l ∈ bucketLines doc clicked false ++ bucketLines doc clicked true,
      l.data ≠ [] ∧ '\n' ∉ l.data := by
  intro l hl
  rcases List.mem_append.mp hl with h | h
  · exact bucketLines_mem_facts doc clicked hNL false l h
  · exact bucketLines_mem_facts doc clicked hNL true l h

theorem allLines_ne_nil (doc : List String) (clicked : Nat)
    (hclick : listItemTest (getLine doc clicked) = true) :
    bucketLines doc clicked false ++ bucketLines doc clicked true ≠ [] := by
  obtain ⟨rest, hhead⟩ := peerSpansOf_head doc clicked hclick
  obtain ⟨sp0, hmem⟩ : ∃ sp, sp ∈ peerSpansOf doc clicked := by
    rw [hhead]; exact ⟨_, List.mem_cons_self _ _⟩
  obtain ⟨hse, hitems, _⟩ := peerSpansOf_span_facts doc clicked sp0 hmem
  have hlines : spanLines doc clicked sp0 ≠ [] := by
    rw [spanLines_eq doc clicked sp0 hse]
    simp
  intro hnil
  rw [List.append_eq_nil] at hnil
  have hbucket : ∀ b, sp0.2.2 = b → spanLines doc clicked sp0 ∈
      (((peerSpansOf doc clicked).filter (fun sp => sp.2.2 = b)).map
        (spanLines doc clicked)) := by
    intro b hb
    exact List.mem_map_of_mem _ (List.mem_filter.mpr ⟨hmem, by simp [hb]⟩)
  cases hb : sp0.2.2
  · have hin := hbucket false hb
    have : spanLines doc clicked sp0 = [] := by
      have h0 := hnil.1
      unfold bucketLines at h0
      rw [List.flatten_eq_nil_iff] at h0
      exact h0 _ hin
    exact hlines this
  · have hin := hbucket true hb
    have : spanLines doc clicked sp0 = [] := by
      have h0 := hnil.2
      unfold bucketLines at h0
      rw [List.flatten_eq_nil_iff] at h0
      exact h0 _ hin
    exact hlines this

theorem finalBlockTextOf_eq (doc : List String) (clicked : Nat)
    (hNL : ∀ l ∈ doc, '\n' ∉ l.data)
    (hEnd : overallEndOf doc clicked + 1 < doc.length) :
    finalBlockTextOf doc clicked =
      linesToText (bucketLines doc clicked false) ++
        linesToText (bucketLines doc clicked true) := by
  unfold finalBlockTextOf
  rw [collectOf_eq]
  unfold bucketLines
  rw [linesToText_flatten, linesToText_flatten]
  simp only [List.map_map]
  congr 1 <;>
  · congr 1
    apply List.map_congr_left
    intro sp hspf
    have hsp := List.mem_of_mem_filter hspf
    obtain ⟨hse, hitems, hoe⟩ := peerSpansOf_span_facts doc clicked sp hsp
    show spanText doc doc.length clicked (isNowTickedOf doc clicked) sp =
      linesToText (spanLines doc clicked sp)
    exact spanText_eq_linesToText doc clicked hNL sp hse (by omega)

theorem textToInsertOf_mid (doc : List String) (clicked : Nat)
    (hNL : ∀ l ∈ doc, '\n' ∉ l.data)
    (hclick : listItemTest (getLine doc clicked) = true)
    (hEnd : overallEndOf doc clicked + 1 < doc.length) :
    textToInsertOf doc clicked =
      linesToText (bucketLines doc clicked false) ++
        linesToText (bucketLines doc clicked true) := by
  have hfinal := finalBlockTextOf_eq doc clicked hNL hEnd
  have hends : endsWithNL (finalBlockTextOf doc clicked) = true := by
    unfold endsWithNL
    rw [hfinal, ← linesToText_append,
      linesToText_endsNL _ (allLines_ne_nil doc clicked hclick)]
    rfl
  have hc1 : ¬ (endsWithNL (finalBlockTextOf doc clicked) = false ∧
      overallEndOf doc clicked < doc.length - 1) := by simp [hends]
  have hc2 : ¬ (endsWithNL (finalBlockTextOf doc clicked) = true ∧
      overallEndOf doc clicked = doc.length - 1) := by
    intro hcon
    omega
  unfold textToInsertOf
  simp only []
  rw [if_neg hc1, if_neg hc2]
  exact hfinal

/-- If line m holds the enable marker and all lines strictly between m
and the scan start are marker-free trimmed list items, the upward scan
reports an enable verdict. -/
theorem markerScanFrom_finds_enable (doc : List String) (m : Nat) :
    ∀ n, m ≤ n →
      containsSub (jsTrim (getLine doc m)) enableMarker = true →
      (∀ j, m < j → j ≤ n →
        listItemTest (jsTrim (getLine doc j)) = true ∧
        containsSub (jsTrim (getLine doc j)) enableMarker = false ∧
        containsSub (jsTrim (getLine doc j)) disableMarker = false) →
      markerScanFrom doc n = some true := by
  intro n
  induction n with
  | zero =>
    intro hmn hm _
    have hm0 : m = 0 := Nat.le_zero.mp hmn
    subst hm0
    simp [markerScanFrom, markerLineVerdict, hm]
  | succ n ih =>
    intro hmn hm hbet
    rcases Nat.eq_or_lt_of_le hmn with he | hlt
    · subst he
      simp [markerScanFrom, markerLineVerdict, hm]
    · have hj := hbet (n + 1) hlt (Nat.le_refl _)
      have hv : markerLineVerdict (jsTrim (getLine doc (n + 1))) = none := by
        simp [markerLineVerdict, hj.1, hj.2.1, hj.2.2]
      rw [markerScanFrom, hv]
      exact ih (Nat.lt_succ_iff.mp hlt) hm
        (fun j h1 h2 => hbet j h1 (Nat.le_succ_of_le h2))

/-- C4: with the global default true and the document override false, an
enable marker on line m below only marker-free list items before the
clicked line makes the effective setting true: the nearest list marker
wins over both lower layers. -/
theorem c4_marker_wins (doc : List String) (clicked m : Nat)
    (hm : m < clicked)
    (hmark : containsSub (jsTrim (getLine doc m)) enableMarker = true)
    (hbetween : ∀ j, m < j → j < clicked →
      listItemTest (jsTrim (getLine doc j)) = true ∧
      containsSub (jsTrim (getLine doc j)) enableMarker = false ∧
      containsSub (jsTrim (getLine doc j)) disableMarker = false) :
    effectiveSortingEnabled true (.boolVal false) doc clicked = true := by
  obtain ⟨c, rfl⟩ : ∃ c, clicked = c + 1 := ⟨clicked - 1, by omega⟩
  have hscan : markerScanFrom doc c = some true :=
    markerScanFrom_finds_enable doc m c (by omega) hmark
      (fun j h1 h2 => hbetween j h1 (by omega))
  simp [effectiveSortingEnabled, markerScan, hscan]

/-- Witness for C4: a disable marker sits above the enable marker, the
global default is true and the override false, and the click on line 2
is still effectively enabled. -/
theorem c4_marker_wins_witness :
    effectiveSortingEnabled true (.boolVal false)
      ["%%checkbox-sort: false%%", "%%checkbox-sort: true%%", "- [ ] a"] 2 = true :=
  c4_marker_wins
    ["%%checkbox-sort: false%%", "%%checkbox-sort: true%%", "- [ ] a"] 2 1
    (by decide) (by decide) (fun j h1 h2 => by exfalso; omega)

/-- C5: whenever the resolved effective setting is false, the operation
performs no buffer mutation at all. -/
theorem c5_disabled_no_mutation (globalDefault : Bool) (fm : FMEntry)
    (doc : List String) (clicked : Nat)
    (h : effectiveSortingEnabled globalDefault fm doc clicked = false) :
    sortCheckboxesAroundClick globalDefault fm doc clicked = none := by
  simp [sortCheckboxesAroundClick, h]

/-- Witness for C5: a disable marker right above the clicked line of an
unsorted block still yields no mutation. -/
theorem c5_disabled_no_mutation_witness :
    effectiveSortingEnabled true .missing
        ["%%checkbox-sort: false%%", "- [x] a", "- [ ] b"] 1 = false ∧
      sortCheckboxesAroundClick true .missing
        ["%%checkbox-sort: false%%", "- [x] a", "- [ ] b"] 1 = none :=
  ⟨by decide,
   c5_disabled_no_mutation true .missing
     ["%%checkbox-sort: false%%", "- [x] a", "- [ ] b"] 1 (by decide)⟩

/-- C7: a click whose target line fails the list-item grammar aborts
with no buffer mutation. -/
theorem c7_not_list_item_no_mutation (globalDefault : Bool) (fm : FMEntry)
    (doc : List String) (clicked : Nat)
    (h : listItemTest (getLine doc clicked) = false) :
    sortCheckboxesAroundClick globalDefault fm doc clicked = none := by
  unfold sortCheckboxesAroundClick
  by_cases he : effectiveSortingEnabled globalDefault fm doc clicked <;> simp [he, h]

/-- Witness for C7: a click on a plain paragraph line mutates nothing. -/
theorem c7_not_list_item_no_mutation_witness :
    listItemTest (getLine ["hello world", "- [ ] a"] 0) = false ∧
      sortCheckboxesAroundClick true .missing ["hello world", "- [ ] a"] 0 = none :=
  ⟨by decide,
   c7_not_list_item_no_mutation true .missing ["hello world", "- [ ] a"] 0 (by decide)⟩

/-- C9: a present but non-boolean checkbox-sort metadata entry is
treated exactly like an absent one, and the file-level value then falls
back to the global default. -/
theorem c9_non_boolean_override_ignored (globalDefault : Bool)
    (doc : List String) (clicked : Nat) :
    effectiveSortingEnabled globalDefault .nonBool doc clicked =
        effectiveSortingEnabled globalDefault .missing doc clicked ∧
      fileLevelSortingEnabled globalDefault .nonBool = globalDefault := by
  refine ⟨?_, rfl⟩
  unfold effectiveSortingEnabled
  cases markerScan doc clicked <;> rfl

/-- C2: the end-to-end example of the specification.  Clicking line 0 of
the three-line document toggles Buy milk to checked and rewrites the
block to Get gas, Buy milk, Bread. -/
theorem c2_end_to_end_example :
    sortCheckboxesAroundClick true .missing
        ["- [ ] Buy milk", "- [ ] Get gas", "- [x] Bread"] 0 =
      some ⟨0, 2, 11, "- [ ] Get gas\n- [x] Buy milk\n- [x] Bread"⟩ ∧
    applyEdit ["- [ ] Buy milk", "- [ ] Get gas", "- [x] Bread"]
        ⟨0, 2, 11, "- [ ] Get gas\n- [x] Buy milk\n- [x] Bread"⟩ =
      ["- [ ] Get gas", "- [x] Buy milk", "- [x] Bread"] := by
  constructor <;> decide

/-- C3 failing input: at document end, the subtree of the last peer
loses its line separation when reordered away from the last position;
the descendant line of peer c is merged with the first line of the
clicked block and no longer appears verbatim in the output. -/
theorem c3_descendant_merged_bug :
    sortCheckboxesAroundClick true .missing
        ["- [ ] a", "- [x] b", "- [ ] c", "  - [ ] d"] 0 =
      some ⟨0, 3, 9, "- [ ] c\n  - [ ] d- [x] a\n- [x] b"⟩ ∧
    applyEdit ["- [ ] a", "- [x] b", "- [ ] c", "  - [ ] d"]
        ⟨0, 3, 9, "- [ ] c\n  - [ ] d- [x] a\n- [x] b"⟩ =
      ["- [ ] c", "  - [ ] d- [x] a", "- [x] b"] ∧
    "  - [ ] d" ∉
      applyEdit ["- [ ] a", "- [x] b", "- [ ] c", "  - [ ] d"]
        ⟨0, 3, 9, "- [ ] c\n  - [ ] d- [x] a\n- [x] b"⟩ := by
  refine ⟨by decide, by decide, by decide⟩

/-- C1 (amended): for an enabled click whose replaced region is followed
by further document content, the replacement text is exactly the
newline-terminated line sequence of all unchecked-bucket subtree blocks
in original peer order followed by all checked-bucket subtree blocks in
original peer order (a stable two-bucket partition, each block on its
own lines).  When the region reaches the last line of the document, the
blocks are still concatenated in this stable order, but the block
holding the final document line carries no terminating newline, so if
reordering moves it away from the last position its last line merges
with the following block (see the counterexample). -/
theorem c1_stable_partition (globalDefault : Bool) (fm : FMEntry)
    (doc : List String) (clicked : Nat)
    (hNL : ∀ l ∈ doc, '\n' ∉ l.data)
    (hEnd : overallEndOf doc clicked + 1 < doc.length) :
    ∀ e, sortCheckboxesAroundClick globalDefault fm doc clicked = some e →
      e.text = linesToText (bucketLines doc clicked false) ++
        linesToText (bucketLines doc clicked true) := by
  intro e he
  obtain ⟨ht, hclick⟩ := sort_some he
  rw [ht]
  exact textToInsertOf_mid doc clicked hNL hclick hEnd

/-- Witness for C1: a three-peer block followed by a paragraph line; the
replacement text is precisely the rendered unchecked-then-checked block
lines. -/
theorem c1_stable_partition_witness :
    sortCheckboxesAroundClick true .missing
        ["- [ ] a", "- [x] b", "- [ ] c", "done"] 0 =
        some ⟨0, 3, 0, "- [ ] c\n- [x] a\n- [x] b\n"⟩ ∧
      (⟨0, 3, 0, "- [ ] c\n- [x] a\n- [x] b\n"⟩ : SortEdit).text =
        linesToText (bucketLines ["- [ ] a", "- [x] b", "- [ ] c", "done"] 0 false) ++
          linesToText (bucketLines ["- [ ] a", "- [x] b", "- [ ] c", "done"] 0 true) :=
  ⟨by decide,
   c1_stable_partition true .missing ["- [ ] a", "- [x] b", "- [ ] c", "done"] 0
     (by decide) (by decide) ⟨0, 3, 0, "- [ ] c\n- [x] a\n- [x] b\n"⟩ (by decide)⟩

/-- Counterexample to C1 as stated: when the replaced region reaches the
last document line and the unchecked bucket starts with the block of
that line, the emitted text is not the line sequence of the buckets; the
final block lost its newline and merges with the next block. -/
theorem c1_stable_partition_counterexample :
    sortCheckboxesAroundClick true .missing ["- [ ] p", "- [x] q", "- [ ] r"] 0 =
        some ⟨0, 2, 7, "- [ ] r- [x] p\n- [x] q"⟩ ∧
      (⟨0, 2, 7, "- [ ] r- [x] p\n- [x] q"⟩ : SortEdit).text ≠
        linesToText (bucketLines ["- [ ] p", "- [x] q", "- [ ] r"] 0 false) ++
          linesToText (bucketLines ["- [ ] p", "- [x] q", "- [ ] r"] 0 true) := by
  refine ⟨by decide, by decide⟩

/-- C8: when the replaced region ends at the last line of the document
the inserted text does not end with a newline, and when further content
follows the region the inserted text ends with exactly one newline. -/
theorem c8_trailing_newline (globalDefault : Bool) (fm : FMEntry)
    (doc : List String) (clicked : Nat)
    (hNL : ∀ l ∈ doc, '\n' ∉ l.data) :
    ∀ e, sortCheckboxesAroundClick globalDefault fm doc clicked = some e →
      (overallEndOf doc clicked = doc.length - 1 →
        e.text.data.getLast? ≠ some '\n') ∧
      (overallEndOf doc clicked + 1 < doc.length →
        e.text.data.getLast? = some '\n' ∧
          e.text.data.dropLast.getLast? ≠ some '\n') := by
  intro e he
  obtain ⟨ht, hclick⟩ := sort_some he
  constructor
  · intro heof
    rw [ht]
    obtain ⟨h1, h2, h3⟩ := finalBlockTextOf_goodBlock doc clicked hNL hclick
    have htot : 1 ≤ doc.length := by
      by_contra hc
      push_neg at hc
      have hdnil : doc = [] := List.length_eq_zero.mp (by omega)
      rw [hdnil] at hclick
      rw [show getLine ([] : List String) clicked = "" from
        List.getD_eq_default _ _ (by simp)] at hclick
      exact absurd hclick (by decide)
    have hc1 : ¬ (endsWithNL (finalBlockTextOf doc clicked) = false ∧
        overallEndOf doc clicked < doc.length - 1) := by
      intro hcon
      omega
    by_cases hend : endsWithNL (finalBlockTextOf doc clicked) = true
    · have hc2 : endsWithNL (finalBlockTextOf doc clicked) = true ∧
          overallEndOf doc clicked = doc.length - 1 := ⟨hend, heof⟩
      unfold textToInsertOf
      simp only []
      rw [if_neg hc1, if_pos hc2]
      have hlastnl : (finalBlockTextOf doc clicked).data.getLast? = some '\n' := by
        unfold endsWithNL at hend
        simpa using hend
      obtain ⟨w, hw⟩ := List.getLast?_eq_some_iff.mp hlastnl
      show (dropLastChar (finalBlockTextOf doc clicked)).data.getLast? ≠ some '\n'
      unfold dropLastChar
      show (finalBlockTextOf doc clicked).data.dropLast.getLast? ≠ some '\n'
      rw [hw, List.dropLast_concat]
      intro hlast
      obtain ⟨w', hw'⟩ := List.getLast?_eq_some_iff.mp hlast
      subst hw'
      rw [hw] at h3
      have hj := (List.chain'_append.mp h3).2.2 '\n'
        (by rw [List.getLast?_concat]; rfl) '\n' rfl
      exact hj ⟨rfl, rfl⟩
    · have hc2 : ¬ (endsWithNL (finalBlockTextOf doc clicked) = true ∧
          overallEndOf doc clicked = doc.length - 1) := by
        intro hcon
        exact hend hcon.1
      unfold textToInsertOf
      simp only []
      rw [if_neg hc1, if_neg hc2]
      unfold endsWithNL at hend
      simpa using hend
  · intro hmid
    rw [ht, textToInsertOf_mid doc clicked hNL hclick hmid, ← linesToText_append]
    have hne := allLines_ne_nil doc clicked hclick
    have hfacts := allLines_mem_facts doc clicked hNL
    exact ⟨linesToText_endsNL _ hne,
      linesToText_one_newline _ hne (fun l hl => (hfacts l hl).1)
        (fun l hl => (hfacts l hl).2)⟩

/-- Witness for C8: clicking the first line of a two-line block that
ends the document produces a replacement with no trailing newline, and
the same click on a block followed by a paragraph yields exactly one. -/
theorem c8_trailing_newline_witness :
    sortCheckboxesAroundClick true .missing ["- [ ] a", "- [x] b"] 0 =
        some ⟨0, 1, 7, "- [x] a\n- [x] b"⟩ ∧
      ("- [x] a\n- [x] b" : String).data.getLast? ≠ some '\n' :=
  ⟨by decide,
   by
     have h := c8_trailing_newline true .missing ["- [ ] a", "- [x] b"] 0 (by decide)
       ⟨0, 1, 7, "- [x] a\n- [x] b"⟩ (by decide)
     exact h.1 (by decide)⟩

/-- C10 failing input: at document end the replacement text for the
three-line region has only two lines, the first being a merger of two
region lines, so the line multiset of the replacement does not match the
line multiset of the replaced range with the clicked marker flipped. -/
theorem c10_line_multiset_bug :
    sortCheckboxesAroundClick true .missing
        ["- [ ] milk", "- [x] gas", "- [ ] tea"] 0 =
      some ⟨0, 2, 9, "- [ ] tea- [x] milk\n- [x] gas"⟩ ∧
    splitNLStr "- [ ] tea- [x] milk\n- [x] gas" =
      ["- [ ] tea- [x] milk", "- [x] gas"] ∧
    ¬ (splitNLStr "- [ ] tea- [x] milk\n- [x] gas").Perm
        ["- [x] milk", "- [x] gas", "- [ ] tea"] := by
  refine ⟨by decide, by decide, by decide⟩

theorem takeWhile_indep2 {p : Char → Bool} {c d : Char} (hc : p c = false)
    (hd : p d = false) :
    ∀ (u v w : List Char), (u ++ c :: v).takeWhile p = (u ++ d :: w).takeWhile p := by
  intro u v w
  induction u with
  | nil => simp [List.takeWhile_cons, hc, hd]
  | cons a u' ih =>
    by_cases hp : p a = true <;> simp [List.takeWhile_cons, hp, ih]

theorem takeWhile_append_of_hasStop {p : Char → Bool} :
    ∀ (u : List Char), (∃ c ∈ u, p c = false) →
      ∀ v, (u ++ v).takeWhile p = u.takeWhile p := by
  intro u
  induction u with
  | nil =>
    intro h
    rcases h with ⟨c, hc, _⟩
    simp at hc
  | cons a u' ih =>
    intro h v
    by_cases hp : p a = true
    · have h' : ∃ c ∈ u', p c = false := by
        rcases h with ⟨c, hc, hpc⟩
        rcases List.mem_cons.mp hc with rfl | hm
        · rw [hp] at hpc; simp at hpc
        · exact ⟨c, hm, hpc⟩
      simp [List.takeWhile_cons, hp, ih h' v]
    · simp [List.takeWhile_cons, hp]

theorem dropWhile_append_of_ne_nil {p : Char → Bool} :
    ∀ (u : List Char), u.dropWhile p ≠ [] →
      ∀ v, (u ++ v).dropWhile p = u.dropWhile p ++ v := by
  intro u
  induction u with
  | nil => intro h; simp at h
  | cons a u' ih =>
    intro h v
    by_cases hp : p a = true
    · rw [List.dropWhile_cons] at h
      simp only [hp, if_true] at h
      simp [List.dropWhile_cons, hp, ih h v]
    · simp [List.dropWhile_cons, hp]

theorem dropWhile_head_neg {p : Char → Bool} :
    ∀ (l : List Char) {c : Char} {t : List Char}, l.dropWhile p = c :: t → p c = false := by
  intro l
  induction l with
  | nil => intro c t h; simp at h
  | cons a l' ih =>
    intro c t h
    by_cases hp : p a = true
    · rw [List.dropWhile_cons, if_pos hp] at h
      exact ih h
    · rw [List.dropWhile_cons, if_neg hp] at h
      injection h with h1 h2
      subst h1
      simpa using hp

theorem lead_stripL (l : List Char) : leadData l ++ stripLData l = l := by
  unfold leadData stripLData
  exact List.takeWhile_append_dropWhile isWS l

theorem stripR_trail (l : List Char) : stripRData l ++ trailData l = l := by
  unfold stripRData trailData
  rw [← List.reverse_append, List.takeWhile_append_dropWhile, List.reverse_reverse]

theorem hasNonWS_of_stripL_ne_nil {l : List Char} (h : stripLData l ≠ []) :
    hasNonWS l := by
  cases hd : stripLData l with
  | nil => exact absurd hd h
  | cons c t =>
    refine ⟨c, ?_, dropWhile_head_neg l hd⟩
    have hmem : c ∈ stripLData l := by rw [hd]; simp
    exact (List.dropWhile_sublist isWS).subset hmem

theorem stripL_ne_nil_of_hasNonWS {l : List Char} (h : hasNonWS l) :
    stripLData l ≠ [] := by
  obtain ⟨c, hc, hw⟩ := h
  intro he
  unfold stripLData at he
  rw [List.dropWhile_eq_nil_iff] at he
  have := he c hc
  rw [hw] at this
  simp at this

theorem hasNonWS_reverse {l : List Char} (h : hasNonWS l) : hasNonWS l.reverse := by
  obtain ⟨c, hc, hw⟩ := h
  exact ⟨c, List.mem_reverse.mpr hc, hw⟩

theorem stripR_ne_nil_of_hasNonWS {l : List Char} (h : hasNonWS l) :
    stripRData l ≠ [] := by
  unfold stripRData
  intro he
  rw [List.reverse_eq_nil_iff] at he
  exact stripL_ne_nil_of_hasNonWS (hasNonWS_reverse h) he

theorem trail_stripL {l : List Char} (h : hasNonWS l) :
    trailData (stripLData l) = trailData l := by
  have hne : stripLData l ≠ [] := stripL_ne_nil_of_hasNonWS h
  have hstop : ∃ c ∈ (stripLData l).reverse, isWS c = false := by
    obtain ⟨c, t, hd⟩ := List.exists_cons_of_ne_nil hne
    exact ⟨c, by rw [hd]; simp, dropWhile_head_neg l hd⟩
  have hrev : l.reverse = (stripLData l).reverse ++ (leadData l).reverse := by
    rw [← List.reverse_append, lead_stripL]
  unfold trailData
  rw [hrev, takeWhile_append_of_hasStop _ hstop]

theorem jsTrim_decomp {l : List Char} (h : hasNonWS l) :
    l = leadData l ++ jsTrimData l ++ trailData l := by
  conv_lhs => rw [← lead_stripL l]
  rw [List.append_assoc]
  congr 1
  conv_lhs => rw [← stripR_trail (stripLData l)]
  rw [trail_stripL h]
  rfl

theorem lead_all_ws (l : List Char) : ∀ c ∈ leadData l, isWS c = true :=
  fun _ hc => List.mem_takeWhile_imp hc

theorem trail_all_ws (l : List Char) : ∀ c ∈ trailData l, isWS c = true := by
  intro c hc
  unfold trailData at hc
  exact List.mem_takeWhile_imp (List.mem_reverse.mp hc)

theorem stripL_stripR_eq_jsTrim {l : List Char} (h : hasNonWS l) :
    stripLData (stripRData l) = jsTrimData l := by
  have hsr : stripRData l ≠ [] := stripR_ne_nil_of_hasNonWS h
  have hlast : ∃ c ∈ stripRData l, isWS c = false := by
    have hne : l.reverse.dropWhile isWS ≠ [] := by
      intro he
      apply hsr
      unfold stripRData
      rw [he]
      rfl
    obtain ⟨c, t, hd⟩ := List.exists_cons_of_ne_nil hne
    refine ⟨c, ?_, dropWhile_head_neg l.reverse hd⟩
    unfold stripRData
    rw [hd]
    simp
  have hlead : leadData l = leadData (stripRData l) := by
    unfold leadData
    conv_lhs => rw [← stripR_trail l]
    exact takeWhile_append_of_hasStop _ hlast _
  have h1 : l = leadData (stripRData l) ++ (stripLData (stripRData l) ++ trailData l) := by
    conv_lhs => rw [← stripR_trail l, ← lead_stripL (stripRData l)]
    rw [List.append_assoc]
  have h2 : l = leadData (stripRData l) ++ (jsTrimData l ++ trailData l) := by
    conv_lhs => rw [jsTrim_decomp h]
    rw [hlead, List.append_assoc]
  have h3 := List.append_cancel_left (h1.symm.trans h2)
  exact List.append_cancel_right h3

theorem eq_of_stripL_stripR {x y : List Char} (hx : hasNonWS x)
    (hL : stripLData x = stripLData y) (hR : stripRData x = stripRData y) :
    x = y := by
  have hy : hasNonWS y :=
    hasNonWS_of_stripL_ne_nil (hL ▸ stripL_ne_nil_of_hasNonWS hx)
  have htr : trailData x = trailData y := by
    rw [← trail_stripL hx, hL, trail_stripL hy]
  calc x = stripRData x ++ trailData x := (stripR_trail x).symm
  _ = stripRData y ++ trailData y := by rw [hR, htr]
  _ = y := stripR_trail y

theorem replaceFirst_decomp (pat rep : List Char) :
    ∀ (s : List Char), jsReplaceFirstData pat rep s ≠ s →
      ∃ pre suf, s = pre ++ pat ++ suf ∧
        jsReplaceFirstData pat rep s = pre ++ rep ++ suf := by
  intro s
  induction s with
  | nil => intro h; exact absurd rfl h
  | cons c t ih =>
    intro hne
    by_cases hp : pat.isPrefixOf (c :: t) = true
    · obtain ⟨suf, hsuf⟩ := List.isPrefixOf_iff_prefix.mp hp
      refine ⟨[], suf, by rw [List.nil_append, hsuf], ?_⟩
      rw [jsReplaceFirstData, if_pos hp, List.nil_append, ← hsuf, List.drop_left]
    · have hrec : jsReplaceFirstData pat rep t ≠ t := by
        intro he
        apply hne
        rw [jsReplaceFirstData, if_neg hp, he]
      obtain ⟨pre, suf, h1, h2⟩ := ih hrec
      refine ⟨c :: pre, suf, by rw [h1]; rfl, ?_⟩
      rw [jsReplaceFirstData, if_neg hp, h2]
      rfl

theorem jsTrim_replaceFirst_ne {pat rep s : List Char}
    (hph : ∃ c t, pat = c :: t ∧ isWS c = false)
    (hrh : ∃ c t, rep = c :: t ∧ isWS c = false)
    (hpl : ∃ c, pat.getLast? = some c ∧ isWS c = false)
    (hrl : ∃ c, rep.getLast? = some c ∧ isWS c = false)
    (hne : jsReplaceFirstData pat rep s ≠ s) :
    jsTrimData (jsReplaceFirstData pat rep s) ≠ jsTrimData s := by
  obtain ⟨pre, suf, h1, h2⟩ := replaceFirst_decomp pat rep s hne
  obtain ⟨cp, tp, hpat, hcp⟩ := hph
  obtain ⟨cr, tr2, hrep, hcr⟩ := hrh
  obtain ⟨lp, hlp, hlpw⟩ := hpl
  obtain ⟨lr, hlr, hlrw⟩ := hrl
  have hsx : hasNonWS s := ⟨cp, by rw [h1, hpat]; simp, hcp⟩
  have hsy : hasNonWS (jsReplaceFirstData pat rep s) := ⟨cr, by rw [h2, hrep]; simp, hcr⟩
  have hlead : leadData (jsReplaceFirstData pat rep s) = leadData s := by
    unfold leadData
    rw [h2, h1, hpat, hrep, List.append_assoc, List.append_assoc,
      List.cons_append, List.cons_append]
    exact takeWhile_indep2 hcr hcp pre _ _
  have htrail : trailData (jsReplaceFirstData pat rep s) = trailData s := by
    unfold trailData
    congr 1
    rw [h2, h1]
    rw [List.reverse_append, List.reverse_append, List.reverse_append, List.reverse_append]
    have hrevp : pat.reverse = lp :: pat.reverse.tail := by
      have hh : pat.reverse.head? = some lp := by rw [List.head?_reverse]; exact hlp
      obtain ⟨a, b, hab⟩ :=
        List.exists_cons_of_ne_nil (fun he : pat.reverse = [] => by rw [he] at hh; simp at hh)
      rw [hab] at hh ⊢
      injection hh with hh
      rw [hh]
      rfl
    have hrevr : rep.reverse = lr :: rep.reverse.tail := by
      have hh : rep.reverse.head? = some lr := by rw [List.head?_reverse]; exact hlr
      obtain ⟨a, b, hab⟩ :=
        List.exists_cons_of_ne_nil (fun he : rep.reverse = [] => by rw [he] at hh; simp at hh)
      rw [hab] at hh ⊢
      injection hh with hh
      rw [hh]
      rfl
    rw [hrevp, hrevr, List.cons_append, List.cons_append]
    exact takeWhile_indep2 hlrw hlpw suf.reverse _ _
  intro htrim
  apply hne
  have hd1 := jsTrim_decomp hsx
  have hd2 := jsTrim_decomp hsy
  rw [htrim, hlead, htrail] at hd2
  rw [← hd1] at hd2
  exact hd2

theorem jsTrim_flipLine_ne {l : String} {b : Bool} (heff : flipLine l b ≠ l) :
    jsTrimData (flipLine l b).data ≠ jsTrimData l.data := by
  have hdata : (flipLine l b).data ≠ l.data := fun h => heff (strEq_of_data h)
  cases b
  · have he : (flipLine l false).data
        = jsReplaceFirstData ['[', 'x', ']'] ['[', ' ', ']'] l.data := rfl
    rw [he] at hdata ⊢
    exact jsTrim_replaceFirst_ne
      ⟨'[', ['x', ']'], rfl, by decide⟩
      ⟨'[', [' ', ']'], rfl, by decide⟩
      ⟨']', by decide, by decide⟩ ⟨']', by decide, by decide⟩ hdata
  · have he : (flipLine l true).data
        = jsReplaceFirstData ['[', ' ', ']'] ['[', 'x', ']'] l.data := rfl
    rw [he] at hdata ⊢
    exact jsTrim_replaceFirst_ne
      ⟨'[', [' ', ']'], rfl, by decide⟩
      ⟨'[', ['x', ']'], rfl, by decide⟩
      ⟨']', by decide, by decide⟩ ⟨']', by decide, by decide⟩ hdata

theorem hasNonWS_flipLine {l : String} (h : hasNonWS l.data) (b : Bool) :
    hasNonWS (flipLine l b).data := by
  by_cases heff : flipLine l b = l
  · rw [heff]; exact h
  · have hdata : (flipLine l b).data ≠ l.data := fun hd => heff (strEq_of_data hd)
    cases b
    · have he : (flipLine l false).data
          = jsReplaceFirstData ['[', 'x', ']'] ['[', ' ', ']'] l.data := rfl
      rw [he] at hdata ⊢
      obtain ⟨pre, suf, h1, h2⟩ := replaceFirst_decomp _ _ _ hdata
      exact ⟨'[', by rw [h2]; simp, by decide⟩
    · have he : (flipLine l true).data
          = jsReplaceFirstData ['[', ' ', ']'] ['[', 'x', ']'] l.data := rfl
      rw [he] at hdata ⊢
      obtain ⟨pre, suf, h1, h2⟩ := replaceFirst_decomp _ _ _ hdata
      exact ⟨'[', by rw [h2]; simp, by decide⟩

theorem stripRLast_concat (e : List Char) :
    ∀ ds : List (List Char), stripRLast (ds ++ [e]) = ds ++ [stripRData e] := by
  intro ds
  induction ds with
  | nil => rfl
  | cons d ds ih =>
    cases ds with
    | nil => rfl
    | cons d2 ds2 =>
      show d :: stripRLast ((d2 :: ds2) ++ [e]) = d :: ((d2 :: ds2) ++ [stripRData e])
      rw [ih]

theorem stripRLast_length (ds : List (List Char)) : (stripRLast ds).length = ds.length := by
  induction ds with
  | nil => rfl
  | cons d ds ih =>
    cases ds with
    | nil => rfl
    | cons d2 ds2 =>
      show (d :: stripRLast (d2 :: ds2)).length = (d :: d2 :: ds2).length
      rw [List.length_cons, List.length_cons, ih]

theorem trimChunks_single (d : List Char) : trimChunks [d] = [jsTrimData d] := rfl

theorem trimChunks_concat (d e : List Char) (ds : List (List Char)) :
    trimChunks (d :: ds ++ [e]) = stripLData d :: ds ++ [stripRData e] := by
  show stripRLast ((stripLData d :: ds) ++ [e]) = stripLData d :: (ds ++ [stripRData e])
  rw [stripRLast_concat, List.cons_append]

theorem trimChunks_length (ds : List (List Char)) : (trimChunks ds).length = ds.length := by
  cases ds with
  | nil => rfl
  | cons d ds' =>
    show (stripRLast (stripLData d :: ds')).length = (d :: ds').length
    rw [stripRLast_length, List.length_cons, List.length_cons]

theorem stripL_no_nl {d : List Char} (h : '\n' ∉ d) : '\n' ∉ stripLData d :=
  fun hm => h ((List.dropWhile_sublist isWS).subset hm)

theorem stripR_no_nl {d : List Char} (h : '\n' ∉ d) : '\n' ∉ stripRData d := by
  intro hm
  unfold stripRData at hm
  exact h (List.mem_reverse.mp
    ((List.dropWhile_sublist isWS).subset (List.mem_reverse.mp hm)))

theorem jsTrimData_no_nl {d : List Char} (h : '\n' ∉ d) : '\n' ∉ jsTrimData d :=
  stripR_no_nl (stripL_no_nl h)

theorem stripRLast_no_nl {ds : List (List Char)} (h : ∀ d ∈ ds, '\n' ∉ d) :
    ∀ d ∈ stripRLast ds, '\n' ∉ d := by
  induction ds with
  | nil =>
    intro d hd
    rw [show stripRLast [] = [] from rfl] at hd
    simp at hd
  | cons a ds ih =>
    cases ds with
    | nil =>
      intro d hd
      rcases List.mem_singleton.mp hd with rfl
      exact stripR_no_nl (h a (by simp))
    | cons b ds2 =>
      intro d hd
      rcases List.mem_cons.mp hd with rfl | hm
      · exact h d (by simp)
      · exact ih (fun x hx => h x (List.mem_cons.mpr (Or.inr hx))) d hm

theorem trimChunks_no_nl {ds : List (List Char)} (h : ∀ d ∈ ds, '\n' ∉ d) :
    ∀ d ∈ trimChunks ds, '\n' ∉ d := by
  cases ds with
  | nil => intro d hd; simp [trimChunks] at hd
  | cons a ds' =>
    show ∀ d ∈ stripRLast (stripLData a :: ds'), '\n' ∉ d
    apply stripRLast_no_nl
    intro x hx
    rcases List.mem_cons.mp hx with rfl | hm
    · exact stripL_no_nl (h a (by simp))
    · exact h x (List.mem_cons.mpr (Or.inr hm))

theorem jsTrimData_snoc_ws {c : Char} (hc : isWS c = true) (m : List Char) :
    jsTrimData (m ++ [c]) = jsTrimData m := by
  unfold jsTrimData
  rw [List.dropWhile_append]
  by_cases he : (m.dropWhile isWS).isEmpty
  · rw [if_pos he]
    have hm : m.dropWhile isWS = [] := List.isEmpty_iff.mp he
    have hc2 : List.dropWhile isWS [c] = [] := by
      rw [List.dropWhile_cons, if_pos hc]
      rfl
    rw [hm, hc2]
  · rw [if_neg he, List.reverse_append]
    show ((c :: (m.dropWhile isWS).reverse).dropWhile isWS).reverse = _
    rw [List.dropWhile_cons, if_pos hc]

theorem jsTrim_append_nl (s : String) : jsTrim (s ++ "\n") = jsTrim s := by
  apply strEq_of_data
  show jsTrimData (s ++ "\n").data = jsTrimData s.data
  have hnl : ("\n" : String).data = ['\n'] := rfl
  rw [strData_append, hnl]
  exact jsTrimData_snoc_ws (by decide) s.data

theorem stripR_append_of_ne_nil {suf : List Char} (h : stripRData suf ≠ [])
    (pre : List Char) : stripRData (pre ++ suf) = pre ++ stripRData suf := by
  unfold stripRData at *
  have hne : suf.reverse.dropWhile isWS ≠ [] := by
    intro he; apply h; rw [he]; rfl
  rw [List.reverse_append, dropWhile_append_of_ne_nil _ hne, List.reverse_append,
    List.reverse_reverse]

theorem stripL_append_of_ne_nil {pre : List Char} (h : stripLData pre ≠ [])
    (suf : List Char) : stripLData (pre ++ suf) = stripLData pre ++ suf := by
  unfold stripLData at *
  exact dropWhile_append_of_ne_nil _ h suf

theorem mem_joinNLData {c : Char} : ∀ {ds : List (List Char)} {d : List Char},
    d ∈ ds → c ∈ d → c ∈ joinNLData ds := by
  intro ds
  induction ds with
  | nil => intro d h; simp at h
  | cons a ds ih =>
    intro d hd hc
    cases ds with
    | nil =>
      rcases List.mem_singleton.mp hd with rfl
      exact hc
    | cons b ds2 =>
      rw [joinNLData_cons_of_ne_nil a (by simp)]
      rcases List.mem_cons.mp hd with rfl | hm
      · exact List.mem_append.mpr (Or.inl hc)
      · exact List.mem_append.mpr (Or.inr (List.mem_cons.mpr (Or.inr (ih hm hc))))

theorem hasNonWS_joinNLData {ds : List (List Char)} {d : List Char}
    (hd : d ∈ ds) (h : hasNonWS d) : hasNonWS (joinNLData ds) := by
  obtain ⟨c, hc, hw⟩ := h
  exact ⟨c, mem_joinNLData hd hc, hw⟩

theorem stripR_joinNLData (e : List Char) (he : hasNonWS e) :
    ∀ ds : List (List Char),
      stripRData (joinNLData (ds ++ [e])) = joinNLData (ds ++ [stripRData e]) := by
  intro ds
  induction ds with
  | nil => rfl
  | cons a ds ih =>
    have hJ : hasNonWS (joinNLData (ds ++ [e])) :=
      hasNonWS_joinNLData (by simp) he
    have hne : stripRData (joinNLData (ds ++ [e])) ≠ [] :=
      stripR_ne_nil_of_hasNonWS hJ
    rw [List.cons_append, joinNLData_cons_of_ne_nil a (by simp),
      List.cons_append, joinNLData_cons_of_ne_nil a (by simp)]
    rw [show a ++ '\n' :: joinNLData (ds ++ [e]) =
      (a ++ ['\n']) ++ joinNLData (ds ++ [e]) by rw [List.append_assoc]; rfl]
    rw [stripR_append_of_ne_nil hne, ih, List.append_assoc]
    rfl

theorem stripL_joinNLData (d : List Char) (hd : hasNonWS d) (ds : List (List Char)) :
    stripLData (joinNLData (d :: ds)) = joinNLData (stripLData d :: ds) := by
  cases ds with
  | nil => rfl
  | cons b ds2 =>
    rw [joinNLData_cons_of_ne_nil d (by simp),
      joinNLData_cons_of_ne_nil (stripLData d) (by simp)]
    exact stripL_append_of_ne_nil (stripL_ne_nil_of_hasNonWS hd) _

theorem jsTrim_joinNLData (d : List Char) (ds : List (List Char))
    (hd : hasNonWS d) (hds : ∀ x ∈ ds, hasNonWS x) :
    jsTrimData (joinNLData (d :: ds)) = joinNLData (trimChunks (d :: ds)) := by
  rcases List.eq_nil_or_concat ds with rfl | ⟨ds', e, hc⟩
  · rfl
  · rw [List.concat_eq_append] at hc
    subst hc
    show stripRData (stripLData (joinNLData (d :: (ds' ++ [e])))) = _
    rw [stripL_joinNLData d hd,
      show stripLData d :: (ds' ++ [e]) = (stripLData d :: ds') ++ [e] from rfl,
      stripR_joinNLData e (hds e (by simp))]
    congr 1
    exact (trimChunks_concat d e ds').symm

theorem splitNL_joinNL_chunks :
    ∀ (d : List Char) (ds : List (List Char)), '\n' ∉ d → (∀ x ∈ ds, '\n' ∉ x) →
      splitNLData (joinNLData (d :: ds)) = d :: ds := by
  intro d ds
  induction ds generalizing d with
  | nil => intro hd _; exact splitNLData_no_nl hd
  | cons e ds ih =>
    intro hd hds
    rw [joinNLData_cons_of_ne_nil d (by simp), splitNLData_append _ hd,
      ih e (hds e (by simp)) (fun x hx => hds x (by simp [hx]))]

theorem joinNLData_inj {ds es : List (List Char)} (hd : ds ≠ []) (he : es ≠ [])
    (hdnl : ∀ x ∈ ds, '\n' ∉ x) (henl : ∀ x ∈ es, '\n' ∉ x)
    (h : joinNLData ds = joinNLData es) : ds = es := by
  obtain ⟨d, ds', rfl⟩ := List.exists_cons_of_ne_nil hd
  obtain ⟨e, es', rfl⟩ := List.exists_cons_of_ne_nil he
  have hsplit := congrArg splitNLData h
  rw [splitNL_joinNL_chunks d ds' (hdnl d (by simp)) (fun x hx => hdnl x (by simp [hx])),
    splitNL_joinNL_chunks e es' (henl e (by simp)) (fun x hx => henl x (by simp [hx]))]
    at hsplit
  exact hsplit

theorem map_data_inj : ∀ {X Y : List String},
    X.map String.data = Y.map String.data → X = Y := by
  intro X
  induction X with
  | nil =>
    intro Y h
    cases Y with
    | nil => rfl
    | cons y Y' => simp at h
  | cons x X' ih =>
    intro Y h
    cases Y with
    | nil => simp at h
    | cons y Y' =>
      simp only [List.map_cons, List.cons.injEq] at h
      rw [strEq_of_data h.1, ih h.2]

theorem joinNL_single (x : String) : joinNL [x] = x := rfl

theorem joinNL_cons (x : String) {X : List String} (h : X ≠ []) :
    joinNL (x :: X) = (x ++ "\n") ++ joinNL X := by
  apply strEq_of_data
  rw [strData_append, strData_append]
  have hm : X.map String.data ≠ [] := fun hh => h (List.map_eq_nil_iff.mp hh)
  show joinNLData (x.data :: X.map String.data) =
    x.data ++ ("\n" : String).data ++ (joinNL X).data
  rw [joinNLData_cons_of_ne_nil _ hm, List.append_assoc]
  rfl

theorem joinNL_inj {X Y : List String} (hX : X ≠ []) (hY : Y ≠ [])
    (hXnl : ∀ l ∈ X, '\n' ∉ l.data) (hYnl : ∀ l ∈ Y, '\n' ∉ l.data)
    (h : joinNL X = joinNL Y) : X = Y := by
  apply map_data_inj
  apply joinNLData_inj (fun hh => hX (List.map_eq_nil_iff.mp hh))
    (fun hh => hY (List.map_eq_nil_iff.mp hh))
  · intro x hx
    rcases List.mem_map.mp hx with ⟨l, hl, rfl⟩
    exact hXnl l hl
  · intro x hx
    rcases List.mem_map.mp hx with ⟨l, hl, rfl⟩
    exact hYnl l hl
  · exact congrArg String.data h

theorem linesToText_eq_joinNL {X : List String} (h : X ≠ []) :
    linesToText X = joinNL X ++ "\n" := by
  induction X with
  | nil => exact absurd rfl h
  | cons x X' ih =>
    cases X' with
    | nil => rw [linesToText_cons, linesToText_nil, strAppend_empty, joinNL_single]
    | cons y Y' =>
      rw [linesToText_cons, ih (by simp), joinNL_cons x (by simp), strAppend_assoc,
        strAppend_assoc, strAppend_assoc]

theorem joinNL_append (X : List String) {Y : List String} (hY : Y ≠ []) :
    joinNL (X ++ Y) = linesToText X ++ joinNL Y := by
  induction X with
  | nil => rw [List.nil_append, linesToText_nil, strEmpty_append]
  | cons x X' ih =>
    rw [List.cons_append,
      joinNL_cons x (fun hh => hY (List.append_eq_nil.mp hh).2), ih,
      linesToText_cons, strAppend_assoc, strAppend_assoc, strAppend_assoc]

theorem joinNL_concat (X : List String) (y : String) :
    joinNL (X ++ [y]) = linesToText X ++ y := by
  rw [joinNL_append X (by simp), joinNL_single]

theorem dropLastChar_linesToText {X : List String} (h : X ≠ []) :
    dropLastChar (linesToText X) = joinNL X := by
  rw [linesToText_eq_joinNL h]
  apply strEq_of_data
  show ((joinNL X ++ "\n").data).dropLast = (joinNL X).data
  rw [strData_append]
  show ((joinNL X).data ++ ['\n']).dropLast = (joinNL X).data
  simp

theorem endsWithNL_linesToText {X : List String} (h : X ≠ []) :
    endsWithNL (linesToText X) = true := by
  unfold endsWithNL
  rw [linesToText_endsNL X h]
  rfl

theorem joinNL_concat_getLast (X : List String) (y : String) (hy : y.data ≠ []) :
    (joinNL (X ++ [y])).data.getLast? = y.data.getLast? := by
  rw [joinNL_concat, strData_append]
  exact List.getLast?_append_of_ne_nil (linesToText X).data hy

theorem endsWithNL_joinNL_false (X : List String) (y : String) (hy : y.data ≠ [])
    (hnl : '\n' ∉ y.data) : endsWithNL (joinNL (X ++ [y])) = false := by
  unfold endsWithNL
  rw [joinNL_concat_getLast X y hy]
  cases hl : y.data.getLast? with
  | none => rfl
  | some c =>
    have hc : c ∈ y.data := List.mem_of_mem_getLast? (by rw [hl]; rfl)
    have hcne : c ≠ '\n' := fun e => hnl (e ▸ hc)
    simp [hcne]

theorem dropTrailNL_of_endsNL_false {s : String} (h : endsWithNL s = false) :
    dropTrailNL s = s := by
  unfold dropTrailNL
  rw [h]
  rfl

theorem dropTrailNL_linesToText {X : List String} (h : X ≠ []) :
    dropTrailNL (linesToText X) = joinNL X := by
  unfold dropTrailNL
  rw [endsWithNL_linesToText h, if_pos rfl, dropLastChar_linesToText h]

theorem listItem_hasNonWS {l : String} (h : listItemTest l = true) : hasNonWS l.data := by
  apply hasNonWS_of_stripL_ne_nil
  intro he
  unfold listItemTest at h
  unfold stripLData at he
  rw [he] at h
  simp at h

theorem jsTrim_joinNL_eq_iff {X Y : List String} (hX : X ≠ []) (hY : Y ≠ [])
    (hXp : ∀ l ∈ X, '\n' ∉ l.data ∧ hasNonWS l.data)
    (hYp : ∀ l ∈ Y, '\n' ∉ l.data ∧ hasNonWS l.data) :
    jsTrim (joinNL X) = jsTrim (joinNL Y) ↔
      trimChunks (X.map String.data) = trimChunks (Y.map String.data) := by
  obtain ⟨x, X', rfl⟩ := List.exists_cons_of_ne_nil hX
  obtain ⟨y, Y', rfl⟩ := List.exists_cons_of_ne_nil hY
  have hXc : jsTrimData (joinNLData ((x :: X').map String.data)) =
      joinNLData (trimChunks ((x :: X').map String.data)) := by
    rw [List.map_cons]
    exact jsTrim_joinNLData x.data (X'.map String.data) (hXp x (by simp)).2
      (fun c hc => by
        rcases List.mem_map.mp hc with ⟨l, hl, rfl⟩
        exact (hXp l (by simp [hl])).2)
  have hYc : jsTrimData (joinNLData ((y :: Y').map String.data)) =
      joinNLData (trimChunks ((y :: Y').map String.data)) := by
    rw [List.map_cons]
    exact jsTrim_joinNLData y.data (Y'.map String.data) (hYp y (by simp)).2
      (fun c hc => by
        rcases List.mem_map.mp hc with ⟨l, hl, rfl⟩
        exact (hYp l (by simp [hl])).2)
  constructor
  · intro h
    have hdata : jsTrimData (joinNLData ((x :: X').map String.data)) =
        jsTrimData (joinNLData ((y :: Y').map String.data)) := congrArg String.data h
    rw [hXc, hYc] at hdata
    apply joinNLData_inj ?_ ?_ ?_ ?_ hdata
    · intro hh
      have := congrArg List.length hh
      rw [trimChunks_length] at this
      simp at this
    · intro hh
      have := congrArg List.length hh
      rw [trimChunks_length] at this
      simp at this
    · apply trimChunks_no_nl
      intro c hc
      rcases List.mem_map.mp hc with ⟨l, hl, rfl⟩
      exact (hXp l hl).1
    · apply trimChunks_no_nl
      intro c hc
      rcases List.mem_map.mp hc with ⟨l, hl, rfl⟩
      exact (hYp l hl).1
  · intro h
    apply strEq_of_data
    show jsTrimData (joinNLData ((x :: X').map String.data)) =
      jsTrimData (joinNLData ((y :: Y').map String.data))
    rw [hXc, hYc, h]

theorem clicked_lt_length {doc : List String} {clicked : Nat}
    (h : listItemTest (getLine doc clicked) = true) : clicked < doc.length := by
  by_contra hn
  push_neg at hn
  have he : getLine doc clicked = "" := by
    unfold getLine
    exact List.getD_eq_default _ _ (by omega)
  rw [he] at h
  exact absurd h (by decide)

theorem blockEndFrom_lt_length (cur len : Nat) :
    ∀ (l : List String) (i be : Nat), be < len → i + l.length ≤ len →
      blockEndFrom cur l i be < len := by
  intro l
  induction l with
  | nil => intro i be h _; exact h
  | cons a t ih =>
    intro i be hbe hlen
    unfold blockEndFrom
    split
    · exact hbe
    · split
      · exact ih (i + 1) i (by simp at hlen; omega) (by simp at hlen; omega)
      · split
        · exact hbe
        · exact ih (i + 1) be hbe (by simp at hlen; omega)

theorem blockEndOf_lt_length {doc : List String} {clicked : Nat}
    (h : clicked < doc.length) : blockEndOf doc clicked < doc.length := by
  unfold blockEndOf findBlockEnd
  exact blockEndFrom_lt_length _ _ _ _ _ h (by rw [List.length_drop]; omega)

theorem overallEndOf_lt_length {doc : List String} {clicked : Nat}
    (h : clicked < doc.length) : overallEndOf doc clicked < doc.length :=
  overallEnd_lt_length doc _ _ (blockEndOf_lt_length h)

theorem blockStartFrom_interval (doc : List String) (cur clicked : Nat) :
    ∀ (i bs : Nat), i < bs → bs ≤ clicked →
      (∀ k, i < k → k ≤ clicked →
        listItemTest (getLine doc k) = true ∧ cur ≤ getIndentationLevel (getLine doc k)) →
      ∀ k, blockStartFrom doc cur i bs ≤ k → k ≤ clicked →
        listItemTest (getLine doc k) = true ∧ cur ≤ getIndentationLevel (getLine doc k) := by
  intro i
  induction i with
  | zero =>
    intro bs hib hbc hinv k hk1 hk2
    unfold blockStartFrom at hk1
    split at hk1
    · exact hinv k (by omega) hk2
    · rename_i hitem
      rw [not_not] at hitem
      split at hk1
      · rename_i hind
        by_cases hk0 : k = 0
        · subst hk0
          exact ⟨hitem, by omega⟩
        · exact hinv k (by omega) hk2
      · exact hinv k (by omega) hk2
  | succ n ih =>
    intro bs hib hbc hinv k hk1 hk2
    unfold blockStartFrom at hk1
    split at hk1
    · exact hinv k (by omega) hk2
    · rename_i hitem
      rw [not_not] at hitem
      split at hk1
      · rename_i hind
        exact ih (n + 1) (by omega) (by omega)
          (fun k2 hk21 hk22 => by
            by_cases he : k2 = n + 1
            · subst he; exact ⟨hitem, by omega⟩
            · exact hinv k2 (by omega) hk22) k hk1 hk2
      · split at hk1
        · exact hinv k (by omega) hk2
        · rename_i hlt
          exact ih bs (by omega) hbc
            (fun k2 hk21 hk22 => by
              by_cases he : k2 = n + 1
              · subst he; exact ⟨hitem, by omega⟩
              · exact hinv k2 (by omega) hk22) k hk1 hk2

theorem region_upper (doc : List String) (clicked : Nat)
    (hclick : listItemTest (getLine doc clicked) = true) :
    ∀ k, blockStartOf doc clicked ≤ k → k ≤ clicked →
      listItemTest (getLine doc k) = true ∧
        curIndentOf doc clicked ≤ getIndentationLevel (getLine doc k) := by
  cases clicked with
  | zero =>
    intro k hk1 hk2
    have hk0 : k = 0 := by omega
    subst hk0
    exact ⟨hclick, le_refl _⟩
  | succ c =>
    intro k hk1 hk2
    have hbs : blockStartOf doc (c + 1) =
        blockStartFrom doc (curIndentOf doc (c + 1)) c (c + 1) := rfl
    rw [hbs] at hk1
    exact blockStartFrom_interval doc (curIndentOf doc (c + 1)) (c + 1) c (c + 1)
      (by omega) (by omega)
      (fun k2 h1 h2 => by
        have he : k2 = c + 1 := by omega
        subst he
        exact ⟨hclick, le_refl _⟩) k hk1 hk2

theorem blockEndFrom_interval (doc : List String) (cur clicked : Nat) :
    ∀ (l : List String) (i be : Nat), l = doc.drop i → clicked < i → clicked ≤ be → be < i →
      (∀ k, clicked < k → k < i →
        listItemTest (getLine doc k) = true ∧ cur ≤ getIndentationLevel (getLine doc k)) →
      ∀ k, clicked < k → k ≤ blockEndFrom cur l i be →
        listItemTest (getLine doc k) = true ∧ cur ≤ getIndentationLevel (getLine doc k) := by
  intro l
  induction l with
  | nil =>
    intro i be hdrop hci hcb hbi hinv k hk1 hk2
    have hbe : blockEndFrom cur [] i be = be := rfl
    exact hinv k hk1 (by omega)
  | cons a t ih =>
    intro i be hdrop hci hcb hbi hinv k hk1 hk2
    have hline : getLine doc i = a := by
      have h0 := getD_drop doc i 0
      rw [← hdrop] at h0
      simpa using h0.symm
    have htdrop : t = doc.drop (i + 1) := by
      rw [← List.tail_drop, ← hdrop]
      rfl
    unfold blockEndFrom at hk2
    split at hk2
    · exact hinv k hk1 (by omega)
    · rename_i hitem
      rw [not_not] at hitem
      split at hk2
      · rename_i hind
        exact ih (i + 1) i htdrop (by omega) (by omega) (by omega)
          (fun k2 h1 h2 => by
            by_cases he : k2 = i
            · subst he; rw [hline]; exact ⟨hitem, by omega⟩
            · exact hinv k2 h1 (by omega)) k hk1 hk2
      · split at hk2
        · exact hinv k hk1 (by omega)
        · rename_i hlt
          exact ih (i + 1) be htdrop (by omega) hcb (by omega)
            (fun k2 h1 h2 => by
              by_cases he : k2 = i
              · subst he; rw [hline]; exact ⟨hitem, by omega⟩
              · exact hinv k2 h1 (by omega)) k hk1 hk2

theorem region_lower (doc : List String) (clicked : Nat) :
    ∀ k, clicked < k → k ≤ blockEndOf doc clicked →
      listItemTest (getLine doc k) = true ∧
        curIndentOf doc clicked ≤ getIndentationLevel (getLine doc k) := by
  intro k hk1 hk2
  unfold blockEndOf findBlockEnd at hk2
  exact blockEndFrom_interval doc (curIndentOf doc clicked) clicked
    (doc.drop (clicked + 1)) (clicked + 1) clicked rfl (by omega) (by omega) (by omega)
    (fun k2 h1 h2 => absurd h1 (by omega)) k hk1 hk2

theorem region_facts (doc : List String) (clicked : Nat)
    (hclick : listItemTest (getLine doc clicked) = true) :
    ∀ k, blockStartOf doc clicked ≤ k → k ≤ overallEndOf doc clicked →
      listItemTest (getLine doc k) = true ∧
        curIndentOf doc clicked ≤ getIndentationLevel (getLine doc k) := by
  intro k h1 h2
  by_cases hk : k ≤ clicked
  · exact region_upper doc clicked hclick k h1 hk
  · by_cases hk2 : k ≤ blockEndOf doc clicked
    · exact region_lower doc clicked k (by omega) hk2
    · exact overallEnd_prop doc (curIndentOf doc clicked) (blockEndOf doc clicked) k
        (by omega) h2

theorem blockEndFrom_max (doc : List String) (cur : Nat) :
    ∀ (l : List String) (i be : Nat), l = doc.drop i →
      ∀ m, i ≤ m → m < doc.length →
        (∀ j, i ≤ j → j < m →
          listItemTest (getLine doc j) = true ∧
            cur ≤ getIndentationLevel (getLine doc j)) →
        listItemTest (getLine doc m) = true →
        getIndentationLevel (getLine doc m) = cur →
        m ≤ blockEndFrom cur l i be := by
  intro l
  induction l with
  | nil =>
    intro i be hdrop m him hmlen _ _ _
    exfalso
    have hge : doc.length ≤ i := by
      by_contra hn
      push_neg at hn
      have hne : doc.drop i ≠ [] := by
        intro he2
        have hlen := congrArg List.length he2
        rw [List.length_drop] at hlen
        simp at hlen
        omega
      exact hne hdrop.symm
    omega
  | cons a t ih =>
    intro i be hdrop m him hmlen hrun hitem hind
    have hline : getLine doc i = a := by
      have h0 := getD_drop doc i 0
      rw [← hdrop] at h0
      simpa using h0.symm
    have htdrop : t = doc.drop (i + 1) := by
      rw [← List.tail_drop, ← hdrop]
      rfl
    by_cases hmi : m = i
    · subst hmi
      rw [hline] at hitem hind
      unfold blockEndFrom
      rw [if_neg (not_not_intro hitem), if_pos hind]
      exact blockEndFrom_ge cur t (m + 1) m (by omega)
    · have hmgt : i < m := by omega
      have hai : listItemTest a = true ∧ cur ≤ getIndentationLevel a := by
        rw [← hline]
        exact hrun i (le_refl i) hmgt
      unfold blockEndFrom
      rw [if_neg (not_not_intro hai.1)]
      by_cases hcur : getIndentationLevel a = cur
      · rw [if_pos hcur]
        exact ih (i + 1) i htdrop m (by omega) hmlen
          (fun j h1 h2 => hrun j (by omega) h2) hitem hind
      · rw [if_neg hcur, if_neg (by have := hai.2; omega)]
        exact ih (i + 1) be htdrop m (by omega) hmlen
          (fun j h1 h2 => hrun j (by omega) h2) hitem hind

theorem no_peer_beyond (doc : List String) (clicked : Nat)
    (hclick : listItemTest (getLine doc clicked) = true) :
    ∀ k, blockEndOf doc clicked < k → k ≤ overallEndOf doc clicked →
      getIndentationLevel (getLine doc k) ≠ curIndentOf doc clicked := by
  intro k hk1 hk2 hind
  have hklen : k < doc.length := by
    have := overallEndOf_lt_length (clicked_lt_length hclick)
    omega
  have hoe0 : overallEndOf doc clicked =
      overallEnd doc (curIndentOf doc clicked) (blockEndOf doc clicked) := rfl
  have hkitem : listItemTest (getLine doc k) = true ∧
      curIndentOf doc clicked ≤ getIndentationLevel (getLine doc k) :=
    overallEnd_prop doc (curIndentOf doc clicked) (blockEndOf doc clicked) k
      (by omega) (by omega)
  have hrun : ∀ j, clicked + 1 ≤ j → j < k →
      listItemTest (getLine doc j) = true ∧
        curIndentOf doc clicked ≤ getIndentationLevel (getLine doc j) := by
    intro j h1 h2
    by_cases hj : j ≤ blockEndOf doc clicked
    · exact region_lower doc clicked j (by omega) hj
    · refine overallEnd_prop doc (curIndentOf doc clicked) (blockEndOf doc clicked) j
        (by omega) ?_
      show j ≤ overallEnd doc (curIndentOf doc clicked) (blockEndOf doc clicked)
      have hoe : overallEndOf doc clicked =
          overallEnd doc (curIndentOf doc clicked) (blockEndOf doc clicked) := rfl
      omega
  have hbege := blockEndOf_ge doc clicked
  have hmax := blockEndFrom_max doc (curIndentOf doc clicked)
    (doc.drop (clicked + 1)) (clicked + 1) clicked rfl k (by omega) hklen
    hrun hkitem.1 hind
  have hbe : blockEndOf doc clicked =
      blockEndFrom (curIndentOf doc clicked) (doc.drop (clicked + 1))
        (clicked + 1) clicked := rfl
  omega

theorem peerSpansGas_nil (doc : List String) (cur clicked : Nat) (nt : Bool) (be : Nat) :
    ∀ gas i, be < i → peerSpansGas doc cur clicked nt be gas i = [] := by
  intro gas i h
  cases gas with
  | zero => rfl
  | succ g =>
    unfold peerSpansGas
    rw [if_neg (by omega)]

theorem flippedLines_glue (doc : List String) (clicked lo te hi : Nat)
    (h1 : lo ≤ te + 1) (h2 : te ≤ hi) :
    flippedLines doc clicked lo te ++ flippedLines doc clicked (te + 1) hi =
      flippedLines doc clicked lo hi := by
  unfold flippedLines
  rw [← List.map_append]
  congr 1
  have hr := List.range'_append lo (te + 1 - lo) (hi + 1 - (te + 1)) 1
  rw [show lo + 1 * (te + 1 - lo) = te + 1 by omega] at hr
  rw [hr]
  congr 1
  omega

theorem spanLines_flipped (doc : List String) (clicked : Nat)
    (sp : Nat × Nat × Bool) (hse : sp.1 ≤ sp.2.1)
    (hint : ∀ k, sp.1 < k → k ≤ sp.2.1 → k ≠ clicked) :
    spanLines doc clicked sp = flippedLines doc clicked sp.1 sp.2.1 := by
  rw [spanLines_eq doc clicked sp hse]
  unfold flippedLines
  rw [show sp.2.1 + 1 - sp.1 = (sp.2.1 - sp.1) + 1 from by omega, List.range'_succ,
    List.map_cons]
  congr 1
  apply List.map_congr_left
  intro k hk
  have hkb := List.mem_range'_1.mp hk
  rw [if_neg (hint k (by omega) (by omega))]

theorem subtree_no_clicked (doc : List String) (clicked : Nat) (i : Nat)
    (hind : getIndentationLevel (getLine doc i) = curIndentOf doc clicked) :
    ∀ k, i < k → k ≤ subtreeEnd doc (curIndentOf doc clicked) i → k ≠ clicked := by
  intro k h1 h2 he
  have hp := subtreeEnd_prop doc (curIndentOf doc clicked) i k (by omega) h2
  have hcur : getIndentationLevel (getLine doc clicked) = curIndentOf doc clicked := rfl
  rw [he, hcur] at hp
  omega

theorem peerSpansGas_tiling (doc : List String) (clicked : Nat)
    (hclick : listItemTest (getLine doc clicked) = true) :
    ∀ gas i, blockEndOf doc clicked + 1 - i ≤ gas →
      blockStartOf doc clicked ≤ i → i ≤ blockEndOf doc clicked →
      listItemTest (getLine doc i) = true →
      getIndentationLevel (getLine doc i) = curIndentOf doc clicked →
      (((peerSpansGas doc (curIndentOf doc clicked) clicked
          (isNowTickedOf doc clicked) (blockEndOf doc clicked) gas i).map
            (spanLines doc clicked)).flatten =
        flippedLines doc clicked i (overallEndOf doc clicked)) ∧
      ∃ pre sp, peerSpansGas doc (curIndentOf doc clicked) clicked
          (isNowTickedOf doc clicked) (blockEndOf doc clicked) gas i = pre ++ [sp] ∧
        sp.2.1 = overallEndOf doc clicked ∧
        ∀ q ∈ pre, q.2.1 < overallEndOf doc clicked := by
  have hoe0 : overallEndOf doc clicked =
      overallEnd doc (curIndentOf doc clicked) (blockEndOf doc clicked) := rfl
  have hbeoe : blockEndOf doc clicked ≤ overallEndOf doc clicked := by
    rw [hoe0]
    exact blockEnd_le_overallEnd doc _ _
  have hlen := clicked_lt_length hclick
  have hoelen := overallEndOf_lt_length hlen
  have hbelen := blockEndOf_lt_length hlen
  intro gas
  induction gas with
  | zero => intro i hgas hbs hbe _ _; omega
  | succ g ih =>
    intro i hgas hbs hbe hitem hind
    have hcons := peerSpansGas_cons doc (curIndentOf doc clicked) clicked
      (isNowTickedOf doc clicked) (blockEndOf doc clicked) g i hbe hitem hind
    rw [hind] at hcons
    have hge : i ≤ subtreeEnd doc (curIndentOf doc clicked) i := subtreeEnd_ge doc _ i
    have hteoe : subtreeEnd doc (curIndentOf doc clicked) i ≤ overallEndOf doc clicked := by
      rw [hoe0]
      exact subtreeEnd_le_overallEnd doc _ hbe
    have hlines : spanLines doc clicked
        (i, subtreeEnd doc (curIndentOf doc clicked) i,
          if i = clicked then isNowTickedOf doc clicked
          else tickedTest (getLine doc i)) =
        flippedLines doc clicked i (subtreeEnd doc (curIndentOf doc clicked) i) :=
      spanLines_flipped doc clicked _ hge (subtree_no_clicked doc clicked i hind)
    by_cases hcase : blockEndOf doc clicked < subtreeEnd doc (curIndentOf doc clicked) i + 1
    · have htail : peerSpansGas doc (curIndentOf doc clicked) clicked
          (isNowTickedOf doc clicked) (blockEndOf doc clicked) g
          (subtreeEnd doc (curIndentOf doc clicked) i + 1) = [] :=
        peerSpansGas_nil doc _ clicked _ _ g _ hcase
      have hteq : subtreeEnd doc (curIndentOf doc clicked) i = overallEndOf doc clicked := by
        by_contra hne
        have hlt : subtreeEnd doc (curIndentOf doc clicked) i < overallEndOf doc clicked := by
          omega
        have hreg := region_facts doc clicked hclick
          (subtreeEnd doc (curIndentOf doc clicked) i + 1) (by omega) (by omega)
        have hnp := no_peer_beyond doc clicked hclick
          (subtreeEnd doc (curIndentOf doc clicked) i + 1) (by omega) (by omega)
        have hstop := subtreeEnd_stop doc (curIndentOf doc clicked) i (by omega)
        exact hstop ⟨hreg.1, by omega⟩
      rw [hcons, htail]
      constructor
      · rw [List.map_cons, List.map_nil, List.flatten_cons, List.flatten_nil,
          List.append_nil, hlines, hteq]
      · refine ⟨[], _, rfl, ?_, by simp⟩
        exact hteq
    · push_neg at hcase
      have hnext := region_facts doc clicked hclick
        (subtreeEnd doc (curIndentOf doc clicked) i + 1) (by omega) (by omega)
      have hstop := subtreeEnd_stop doc (curIndentOf doc clicked) i (by omega)
      have hnind : getIndentationLevel
          (getLine doc (subtreeEnd doc (curIndentOf doc clicked) i + 1)) =
          curIndentOf doc clicked := by
        have h2 := hnext.2
        by_contra hne
        exact hstop ⟨hnext.1, by omega⟩
      obtain ⟨hflat, pre, sp, hspans, hspe, hprelt⟩ :=
        ih (subtreeEnd doc (curIndentOf doc clicked) i + 1) (by omega) (by omega)
          hcase hnext.1 hnind
      rw [hcons]
      constructor
      · rw [List.map_cons, List.flatten_cons, hlines, hflat]
        exact flippedLines_glue doc clicked i _ _ (by omega) hteoe
      · refine ⟨(i, subtreeEnd doc (curIndentOf doc clicked) i,
          if i = clicked then isNowTickedOf doc clicked
          else tickedTest (getLine doc i)) :: pre, sp, by rw [hspans]; rfl, hspe, ?_⟩
        intro q hq
        rcases List.mem_cons.mp hq with rfl | hm
        · show subtreeEnd doc (curIndentOf doc clicked) i < overallEndOf doc clicked
          omega
        · exact hprelt q hm

theorem peerSpansOf_tiling (doc : List String) (clicked : Nat)
    (hclick : listItemTest (getLine doc clicked) = true) :
    (((peerSpansOf doc clicked).map (spanLines doc clicked)).flatten =
      flippedLines doc clicked (blockStartOf doc clicked) (overallEndOf doc clicked)) ∧
    ∃ pre sp, peerSpansOf doc clicked = pre ++ [sp] ∧
      sp.2.1 = overallEndOf doc clicked ∧
      ∀ q ∈ pre, q.2.1 < overallEndOf doc clicked := by
  have hbs := blockStartOf_peer doc clicked hclick
  have h1 : blockStartOf doc clicked ≤ clicked := findBlockStart_le doc _ clicked
  have h2 := blockEndOf_ge doc clicked
  exact peerSpansGas_tiling doc clicked hclick
    (blockEndOf doc clicked + 1 - blockStartOf doc clicked) (blockStartOf doc clicked)
    (le_refl _) (le_refl _) (by omega) hbs.1 hbs.2

theorem ne_nil_of_hasNonWS {l : List Char} (h : hasNonWS l) : l ≠ [] := by
  obtain ⟨c, hc, _⟩ := h
  intro he
  rw [he] at hc
  simp at hc

theorem segText_last (doc : List String) (lo hi : Nat) (hlo : lo ≤ hi)
    (hhi : hi + 1 = doc.length) :
    segText doc doc.length lo hi =
      joinNL ((List.range' lo (hi + 1 - lo)).map (getLine doc)) := by
  have hsplit : List.range' lo (hi + 1 - lo) = List.range' lo (hi - lo) ++ [hi] := by
    have hr := List.range'_append lo (hi - lo) 1 1
    rw [show lo + 1 * (hi - lo) = hi from by omega] at hr
    rw [show List.range' hi 1 = [hi] from rfl] at hr
    rw [hr]
    congr 1
    omega
  unfold segText
  rw [hsplit, List.map_append, List.map_append, strJoin_append,
    show List.map (getLine doc) [hi] = [getLine doc hi] from rfl, joinNL_concat]
  congr 1
  · unfold linesToText
    rw [List.map_map]
    congr 1
    apply List.map_congr_left
    intro k hk
    have hk' := List.mem_range'_1.mp hk
    have hne : k ≠ doc.length - 1 := by omega
    simp [hne]
  · simp only [List.map_cons, List.map_nil, strJoin_cons, strJoin_nil]
    rw [strAppend_empty, if_pos (by omega : hi = doc.length - 1), strAppend_empty]

theorem flipFirstLine_joinNL {l : String} (ls : List String)
    (hl : '\n' ∉ l.data) (hls : ∀ x ∈ ls, '\n' ∉ x.data) (b : Bool) :
    flipFirstLine (joinNL (l :: ls)) b = joinNL (flipLine l b :: ls) := by
  have hsplit : splitNLStr (joinNL (l :: ls)) = l :: ls := by
    unfold splitNLStr
    rw [show (joinNL (l :: ls)).data = joinNLData (l.data :: ls.map String.data)
      from rfl]
    rw [splitNL_joinNL_chunks l.data (ls.map String.data) hl
      (fun x hx => by
        rcases List.mem_map.mp hx with ⟨y, hy, rfl⟩
        exact hls y hy)]
    rw [List.map_cons, List.map_map]
    congr 1
    exact List.map_id'' (fun x => rfl) ls
  exact flipFirstLine_eq_of_split hsplit b

theorem spanText_eof (doc : List String) (clicked : Nat)
    (hNL : ∀ l ∈ doc, '\n' ∉ l.data) (sp : Nat × Nat × Bool)
    (hse : sp.1 ≤ sp.2.1) (hlast : sp.2.1 + 1 = doc.length) :
    spanText doc doc.length clicked (isNowTickedOf doc clicked) sp =
      joinNL (spanLines doc clicked sp) := by
  unfold spanText
  rw [spanLines_eq doc clicked sp hse, segText_last doc sp.1 sp.2.1 hse hlast,
    range'_map_cons doc sp.1 sp.2.1 hse]
  by_cases hc : sp.1 = clicked
  · rw [if_pos hc, if_pos hc,
      flipFirstLine_joinNL _ (getLine_no_nl doc hNL sp.1)
        (fun x hx => by
          rcases List.mem_map.mp hx with ⟨k, hk, rfl⟩
          exact getLine_no_nl doc hNL k) (isNowTickedOf doc clicked)]
  · rw [if_neg hc, if_neg hc]

theorem strJoin_spanTexts_mid (doc : List String) (clicked : Nat)
    (hNL : ∀ l ∈ doc, '\n' ∉ l.data) (sps : List (Nat × Nat × Bool))
    (hfacts : ∀ sp ∈ sps, sp.1 ≤ sp.2.1 ∧ sp.2.1 + 1 < doc.length) :
    strJoin (sps.map (spanText doc doc.length clicked (isNowTickedOf doc clicked))) =
      linesToText ((sps.map (spanLines doc clicked)).flatten) := by
  rw [linesToText_flatten, List.map_map]
  congr 1
  apply List.map_congr_left
  intro sp hsp
  show spanText doc doc.length clicked (isNowTickedOf doc clicked) sp =
    linesToText (spanLines doc clicked sp)
  exact spanText_eq_linesToText doc clicked hNL sp (hfacts sp hsp).1
    (hfacts sp hsp).2

theorem finalBlockTextOf_spanTexts (doc : List String) (clicked : Nat) :
    finalBlockTextOf doc clicked =
      strJoin ((((peerSpansOf doc clicked).filter (fun sp => sp.2.2 = false)) ++
          ((peerSpansOf doc clicked).filter (fun sp => sp.2.2 = true))).map
        (spanText doc doc.length clicked (isNowTickedOf doc clicked))) := by
  unfold finalBlockTextOf
  rw [collectOf_eq, List.map_append, strJoin_append]
  congr 1 <;> (rw [List.map_map]; rfl)

theorem flippedLines_props (doc : List String) (clicked : Nat)
    (hNL : ∀ l ∈ doc, '\n' ∉ l.data)
    (hclick : listItemTest (getLine doc clicked) = true) :
    ∀ l ∈ flippedLines doc clicked (blockStartOf doc clicked)
        (overallEndOf doc clicked),
      '\n' ∉ l.data ∧ hasNonWS l.data := by
  intro l hl
  unfold flippedLines at hl
  rcases List.mem_map.mp hl with ⟨k, hk, rfl⟩
  have hkb := List.mem_range'_1.mp hk
  have hreg := region_facts doc clicked hclick k (by omega) (by omega)
  by_cases hkc : k = clicked
  · rw [if_pos hkc]
    exact ⟨flipLine_no_nl (getLine_no_nl doc hNL k) _,
      hasNonWS_flipLine (listItem_hasNonWS hreg.1) _⟩
  · rw [if_neg hkc]
    exact ⟨getLine_no_nl doc hNL k, listItem_hasNonWS hreg.1⟩

theorem spanLines_ne_nil (doc : List String) (clicked : Nat)
    (sp : Nat × Nat × Bool) (hse : sp.1 ≤ sp.2.1) :
    spanLines doc clicked sp ≠ [] := by
  rw [spanLines_eq doc clicked sp hse]
  simp

theorem originalTextOf_mid (doc : List String) (clicked : Nat)
    (hEnd : overallEndOf doc clicked + 1 < doc.length) :
    originalTextOf doc clicked = linesToText (regionLines doc clicked) := by
  have htl : toLineOf doc clicked = overallEndOf doc clicked + 1 := by
    unfold toLineOf
    rw [if_neg (by omega)]
  have htc : toChOf doc clicked = 0 := by
    unfold toChOf
    rw [if_neg (by omega)]
  unfold originalTextOf
  rw [htl, htc]
  unfold getRange0 regionLines linesToText
  rw [List.map_map,
    show ((getLine doc (overallEndOf doc clicked + 1)).data.take 0) = [] from rfl]
  rw [show (⟨[]⟩ : String) = "" from rfl, strAppend_empty,
    show overallEndOf doc clicked + 1 - blockStartOf doc clicked =
      overallEndOf doc clicked + 1 - blockStartOf doc clicked from rfl]
  rfl

theorem originalTextOf_eof (doc : List String) (clicked : Nat)
    (hclick : listItemTest (getLine doc clicked) = true)
    (hEnd : overallEndOf doc clicked + 1 = doc.length) :
    originalTextOf doc clicked = joinNL (regionLines doc clicked) := by
  have hlen := clicked_lt_length hclick
  have hbsle : blockStartOf doc clicked ≤ clicked := findBlockStart_le doc _ clicked
  have hbe := blockEndOf_ge doc clicked
  have hoe0 : overallEndOf doc clicked =
      overallEnd doc (curIndentOf doc clicked) (blockEndOf doc clicked) := rfl
  have hbeoe : blockEndOf doc clicked ≤ overallEndOf doc clicked := by
    rw [hoe0]
    exact blockEnd_le_overallEnd doc _ _
  have htl : toLineOf doc clicked = overallEndOf doc clicked := by
    unfold toLineOf
    rw [if_pos (by omega)]
  have htc : toChOf doc clicked = (getLine doc (overallEndOf doc clicked)).length := by
    unfold toChOf
    rw [if_pos (by omega)]
  have hregion : regionLines doc clicked =
      (List.range' (blockStartOf doc clicked)
        (overallEndOf doc clicked - blockStartOf doc clicked)).map (getLine doc) ++
      [getLine doc (overallEndOf doc clicked)] := by
    unfold regionLines
    have hr := List.range'_append (blockStartOf doc clicked)
      (overallEndOf doc clicked - blockStartOf doc clicked) 1 1
    rw [show blockStartOf doc clicked +
        1 * (overallEndOf doc clicked - blockStartOf doc clicked) =
        overallEndOf doc clicked from by omega] at hr
    rw [show List.range' (overallEndOf doc clicked) 1 = [overallEndOf doc clicked]
      from rfl] at hr
    rw [show overallEndOf doc clicked + 1 - blockStartOf doc clicked =
      1 + (overallEndOf doc clicked - blockStartOf doc clicked) from by omega, ← hr,
      List.map_append]
    rfl
  unfold originalTextOf
  rw [htl, htc]
  unfold getRange0
  rw [hregion, joinNL_concat]
  congr 1
  · unfold linesToText
    rw [List.map_map]
    rfl
  · apply strEq_of_data
    show ((getLine doc (overallEndOf doc clicked)).data.take
      (getLine doc (overallEndOf doc clicked)).length) = _
    rw [show (getLine doc (overallEndOf doc clicked)).length =
      (getLine doc (overallEndOf doc clicked)).data.length from rfl]
    exact List.take_length _

theorem filter_true_eq_not_false (sps : List (Nat × Nat × Bool)) :
    sps.filter (fun sp => sp.2.2 = true) =
      sps.filter (fun sp => !(decide (sp.2.2 = false))) := by
  apply List.filter_congr
  intro sp _
  cases h : sp.2.2 <;> simp [h]

theorem filters_perm (sps : List (Nat × Nat × Bool)) :
    List.Perm (sps.filter (fun sp => sp.2.2 = false) ++
      sps.filter (fun sp => sp.2.2 = true)) sps := by
  rw [filter_true_eq_not_false]
  exact List.filter_append_perm _ sps

theorem bucketLines_perm_flipped (doc : List String) (clicked : Nat)
    (hclick : listItemTest (getLine doc clicked) = true) :
    List.Perm (bucketLines doc clicked false ++ bucketLines doc clicked true)
      (flippedLines doc clicked (blockStartOf doc clicked)
        (overallEndOf doc clicked)) := by
  obtain ⟨hflat, _⟩ := peerSpansOf_tiling doc clicked hclick
  rw [← hflat]
  unfold bucketLines
  rw [← List.flatten_append, ← List.map_append]
  exact List.Perm.flatten (List.Perm.map _ (filters_perm _))

theorem textToInsert_mid_repr (doc : List String) (clicked : Nat)
    (hNL : ∀ l ∈ doc, '\n' ∉ l.data)
    (hclick : listItemTest (getLine doc clicked) = true)
    (hEnd : overallEndOf doc clicked + 1 < doc.length) :
    textToInsertOf doc clicked =
      linesToText (bucketLines doc clicked false ++ bucketLines doc clicked true) := by
  rw [textToInsertOf_mid doc clicked hNL hclick hEnd, linesToText_append]

theorem strJoin_spans_concat (doc : List String) (clicked : Nat)
    (A : List (Nat × Nat × Bool)) (spl : Nat × Nat × Bool) :
    strJoin ((A ++ [spl]).map
        (spanText doc doc.length clicked (isNowTickedOf doc clicked))) =
      strJoin (A.map (spanText doc doc.length clicked (isNowTickedOf doc clicked))) ++
        spanText doc doc.length clicked (isNowTickedOf doc clicked) spl := by
  rw [List.map_append, strJoin_append]
  congr 1
  rw [show ([spl].map (spanText doc doc.length clicked (isNowTickedOf doc clicked))) =
    [spanText doc doc.length clicked (isNowTickedOf doc clicked) spl] from rfl,
    strJoin_cons, strJoin_nil, strAppend_empty]

theorem textToInsert_eof_nomerge (doc : List String) (clicked : Nat)
    (hNL : ∀ l ∈ doc, '\n' ∉ l.data)
    (hclick : listItemTest (getLine doc clicked) = true)
    (hEnd : overallEndOf doc clicked + 1 = doc.length)
    (A pre : List (Nat × Nat × Bool)) (spl : Nat × Nat × Bool)
    (hspans : peerSpansOf doc clicked = pre ++ [spl])
    (hsple : spl.2.1 = overallEndOf doc clicked)
    (hprelt : ∀ q ∈ pre, q.2.1 < overallEndOf doc clicked)
    (hpi : (peerSpansOf doc clicked).filter (fun sp => sp.2.2 = false) ++
        (peerSpansOf doc clicked).filter (fun sp => sp.2.2 = true) = A ++ [spl])
    (hAperm : List.Perm A pre) :
    ∃ Lf : List String,
      textToInsertOf doc clicked = joinNL Lf ∧
      Lf ≠ [] ∧
      (∀ l ∈ Lf, '\n' ∉ l.data ∧ hasNonWS l.data) ∧
      List.Perm Lf (flippedLines doc clicked (blockStartOf doc clicked)
        (overallEndOf doc clicked)) := by
  obtain ⟨hflat, _⟩ := peerSpansOf_tiling doc clicked hclick
  have hFprops := flippedLines_props doc clicked hNL hclick
  have hsplmem : spl ∈ peerSpansOf doc clicked := by rw [hspans]; simp
  have hsplse : spl.1 ≤ spl.2.1 :=
    (peerSpansOf_span_facts doc clicked spl hsplmem).1
  have hLSne : spanLines doc clicked spl ≠ [] :=
    spanLines_ne_nil doc clicked spl hsplse
  have hpre_facts : ∀ sp ∈ pre, sp.1 ≤ sp.2.1 ∧ sp.2.1 + 1 < doc.length := by
    intro sp hsp
    refine ⟨(peerSpansOf_span_facts doc clicked sp (by rw [hspans]; simp [hsp])).1, ?_⟩
    have := hprelt sp hsp
    omega
  have hA_facts : ∀ sp ∈ A, sp.1 ≤ sp.2.1 ∧ sp.2.1 + 1 < doc.length :=
    fun sp hsp => hpre_facts sp (hAperm.mem_iff.mp hsp)
  have hfb := finalBlockTextOf_spanTexts doc clicked
  rw [hpi, strJoin_spans_concat,
    strJoin_spanTexts_mid doc clicked hNL A hA_facts,
    spanText_eof doc clicked hNL spl hsplse (by omega)] at hfb
  rw [← joinNL_append _ hLSne] at hfb
  refine ⟨(A.map (spanLines doc clicked)).flatten ++ spanLines doc clicked spl,
    ?_, ?_, ?_, ?_⟩
  · -- normalization is the identity here
    have hends : endsWithNL (finalBlockTextOf doc clicked) = false := by
      obtain ⟨X', ylast, hconc⟩ :=
        List.eq_nil_or_concat ((A.map (spanLines doc clicked)).flatten ++
          spanLines doc clicked spl) |>.resolve_left
          (fun hh => hLSne (List.append_eq_nil.mp hh).2)
      rw [List.concat_eq_append] at hconc
      have hymem : ylast ∈ (A.map (spanLines doc clicked)).flatten ++
          spanLines doc clicked spl := by
        rw [hconc]; simp
      have hyF : ylast ∈ flippedLines doc clicked (blockStartOf doc clicked)
          (overallEndOf doc clicked) := by
        refine (List.Perm.mem_iff ?_).mp hymem
        rw [← hflat, hspans, List.map_append, List.flatten_append]
        refine List.Perm.append ?_ (by simp)
        exact List.Perm.flatten (List.Perm.map _ hAperm)
      have hyprops := hFprops ylast hyF
      rw [hfb, hconc]
      exact endsWithNL_joinNL_false X' ylast
        (ne_nil_of_hasNonWS hyprops.2) hyprops.1
    have hc1 : ¬ (endsWithNL (finalBlockTextOf doc clicked) = false ∧
        overallEndOf doc clicked < doc.length - 1) := by
      intro hcon
      omega
    have hc2 : ¬ (endsWithNL (finalBlockTextOf doc clicked) = true ∧
        overallEndOf doc clicked = doc.length - 1) := by
      simp [hends]
    unfold textToInsertOf
    simp only []
    rw [if_neg hc1, if_neg hc2]
    exact hfb
  · intro hh
    exact hLSne (List.append_eq_nil.mp hh).2
  · intro l hl
    apply hFprops l
    refine (List.Perm.mem_iff ?_).mp hl
    rw [← hflat, hspans, List.map_append, List.flatten_append]
    refine List.Perm.append ?_ (by simp)
    exact List.Perm.flatten (List.Perm.map _ hAperm)
  · rw [← hflat, hspans, List.map_append, List.flatten_append]
    refine List.Perm.append ?_ (by simp)
    exact List.Perm.flatten (List.Perm.map _ hAperm)

theorem textToInsert_eof_merge (doc : List String) (clicked : Nat)
    (hNL : ∀ l ∈ doc, '\n' ∉ l.data)
    (hclick : listItemTest (getLine doc clicked) = true)
    (hEnd : overallEndOf doc clicked + 1 = doc.length)
    (pre : List (Nat × Nat × Bool)) (spl : Nat × Nat × Bool)
    (hspans : peerSpansOf doc clicked = pre ++ [spl])
    (hsple : spl.2.1 = overallEndOf doc clicked)
    (hprelt : ∀ q ∈ pre, q.2.1 < overallEndOf doc clicked)
    (hb : spl.2.2 = false)
    (hT : pre.filter (fun sp => sp.2.2 = true) ≠ []) :
    ∃ Lf : List String,
      textToInsertOf doc clicked = joinNL Lf ∧
      Lf ≠ [] ∧
      (∀ l ∈ Lf, '\n' ∉ l.data ∧ hasNonWS l.data) ∧
      Lf.length + 1 = (flippedLines doc clicked (blockStartOf doc clicked)
        (overallEndOf doc clicked)).length := by
  obtain ⟨hflat, _⟩ := peerSpansOf_tiling doc clicked hclick
  have hFprops := flippedLines_props doc clicked hNL hclick
  have hsplmem : spl ∈ peerSpansOf doc clicked := by rw [hspans]; simp
  have hsplse : spl.1 ≤ spl.2.1 :=
    (peerSpansOf_span_facts doc clicked spl hsplmem).1
  have hLSne : spanLines doc clicked spl ≠ [] :=
    spanLines_ne_nil doc clicked spl hsplse
  have hpre_facts : ∀ sp ∈ pre, sp.1 ≤ sp.2.1 ∧ sp.2.1 + 1 < doc.length := by
    intro sp hsp
    refine ⟨(peerSpansOf_span_facts doc clicked sp (by rw [hspans]; simp [hsp])).1, ?_⟩
    have := hprelt sp hsp
    omega
  have hAmem : ∀ sp ∈ pre.filter (fun sp => sp.2.2 = false), sp ∈ pre :=
    fun sp hsp => List.mem_of_mem_filter hsp
  have hBmem : ∀ sp ∈ pre.filter (fun sp => sp.2.2 = true), sp ∈ pre :=
    fun sp hsp => List.mem_of_mem_filter hsp
  have hABperm : List.Perm
      (pre.filter (fun sp => sp.2.2 = false) ++ pre.filter (fun sp => sp.2.2 = true))
      pre := filters_perm pre
  -- the bucket order of the spans
  have hpi : (peerSpansOf doc clicked).filter (fun sp => sp.2.2 = false) ++
      (peerSpansOf doc clicked).filter (fun sp => sp.2.2 = true) =
      (pre.filter (fun sp => sp.2.2 = false) ++ [spl]) ++
        pre.filter (fun sp => sp.2.2 = true) := by
    rw [hspans, List.filter_append, List.filter_append]
    rw [show List.filter (fun sp => decide (sp.2.2 = false)) [spl] = [spl] by
      simp [List.filter_cons, hb]]
    rw [show List.filter (fun sp => decide (sp.2.2 = true)) [spl] = [] by
      simp [List.filter_cons, hb]]
    rw [List.append_nil]
  -- text pieces
  have hfb := finalBlockTextOf_spanTexts doc clicked
  rw [hpi, List.map_append, strJoin_append, strJoin_spans_concat,
    strJoin_spanTexts_mid doc clicked hNL _ (fun sp hsp => hpre_facts sp (hAmem sp hsp)),
    strJoin_spanTexts_mid doc clicked hNL _ (fun sp hsp => hpre_facts sp (hBmem sp hsp)),
    spanText_eof doc clicked hNL spl hsplse (by omega)] at hfb
  -- abbreviations for the three line blocks
  obtain ⟨init, llast, hLS⟩ :=
    (List.eq_nil_or_concat (spanLines doc clicked spl)).resolve_left hLSne
  rw [List.concat_eq_append] at hLS
  have hXBne : ((pre.filter (fun sp => sp.2.2 = true)).map
      (spanLines doc clicked)).flatten ≠ [] := by
    obtain ⟨b0, brest, hb0⟩ := List.exists_cons_of_ne_nil hT
    have hb0mem : b0 ∈ pre := List.mem_of_mem_filter
      (by rw [hb0]; exact List.mem_cons_self b0 brest)
    rw [hb0, List.map_cons, List.flatten_cons]
    intro hh
    exact spanLines_ne_nil doc clicked b0
      ((peerSpansOf_span_facts doc clicked b0
        (by rw [hspans]; exact List.mem_append.mpr (Or.inl hb0mem))).1)
      (List.append_eq_nil.mp hh).1
  obtain ⟨x, xs, hXB⟩ := List.exists_cons_of_ne_nil hXBne
  -- the full unmerged line sequence is a permutation of the flipped region
  have hL1 : (([spl].map (spanLines doc clicked)).flatten) =
      spanLines doc clicked spl := by simp
  have hAB2 : List.Perm
      ((((pre.filter (fun sp => sp.2.2 = false)).map (spanLines doc clicked)).flatten ++
        ((pre.filter (fun sp => sp.2.2 = true)).map (spanLines doc clicked)).flatten))
      ((pre.map (spanLines doc clicked)).flatten) := by
    rw [← List.flatten_append, ← List.map_append]
    exact List.Perm.flatten (List.Perm.map _ hABperm)
  have hperm3 : List.Perm
      ((((pre.filter (fun sp => sp.2.2 = false)).map (spanLines doc clicked)).flatten ++
        (spanLines doc clicked spl ++
          ((pre.filter (fun sp => sp.2.2 = true)).map (spanLines doc clicked)).flatten))
        : List String)
      (flippedLines doc clicked (blockStartOf doc clicked)
        (overallEndOf doc clicked)) := by
    rw [← hflat, hspans, List.map_append, List.flatten_append, hL1]
    refine List.Perm.trans (List.Perm.append_left _ List.perm_append_comm) ?_
    rw [← List.append_assoc]
    exact List.Perm.append_right _ hAB2
  have hmemF : ∀ l, (l ∈ (((pre.filter (fun sp => sp.2.2 = false)).map
        (spanLines doc clicked)).flatten) ∨
      l ∈ spanLines doc clicked spl ∨
      l ∈ ((pre.filter (fun sp => sp.2.2 = true)).map
        (spanLines doc clicked)).flatten) →
      '\n' ∉ l.data ∧ hasNonWS l.data := by
    intro l hl
    apply hFprops l
    apply hperm3.mem_iff.mp
    rcases hl with h | h | h
    · exact List.mem_append.mpr (Or.inl h)
    · exact List.mem_append.mpr (Or.inr (List.mem_append.mpr (Or.inl h)))
    · exact List.mem_append.mpr (Or.inr (List.mem_append.mpr (Or.inr h)))
  have hT0 : finalBlockTextOf doc clicked =
      linesToText
        ((((pre.filter (fun sp => sp.2.2 = false)).map (spanLines doc clicked)).flatten ++
          (init ++ ((llast ++ x) :: xs)))) := by
    rw [hfb, hLS, hXB, joinNL_concat]
    rw [linesToText_append, linesToText_append, linesToText_cons, linesToText_cons]
    apply strEq_of_data
    simp only [strData_append, List.append_assoc]
  have hLfne : (((pre.filter (fun sp => sp.2.2 = false)).map
      (spanLines doc clicked)).flatten ++ (init ++ ((llast ++ x) :: xs))) ≠ [] := by
    intro hh
    have := (List.append_eq_nil.mp hh).2
    have := (List.append_eq_nil.mp this).2
    simp at this
  have hends : endsWithNL (finalBlockTextOf doc clicked) = true := by
    rw [hT0]
    exact endsWithNL_linesToText hLfne
  refine ⟨((pre.filter (fun sp => sp.2.2 = false)).map (spanLines doc clicked)).flatten ++
    (init ++ ((llast ++ x) :: xs)), ?_, hLfne, ?_, ?_⟩
  · -- the normalization drops the trailing newline of the rendering
    have hc1 : ¬ (endsWithNL (finalBlockTextOf doc clicked) = false ∧
        overallEndOf doc clicked < doc.length - 1) := by
      intro hcon
      omega
    have hc2 : endsWithNL (finalBlockTextOf doc clicked) = true ∧
        overallEndOf doc clicked = doc.length - 1 := ⟨hends, by omega⟩
    unfold textToInsertOf
    simp only []
    rw [if_neg hc1, if_pos hc2, hT0, dropLastChar_linesToText hLfne]
  · -- line properties, including the merged line
    intro l hl
    rcases List.mem_append.mp hl with h | h
    · exact hmemF l (Or.inl h)
    · rcases List.mem_append.mp h with h2 | h2
      · exact hmemF l (Or.inr (Or.inl (by rw [hLS]; exact List.mem_append.mpr (Or.inl h2))))
      · rcases List.mem_cons.mp h2 with rfl | h3
        · have hlp : '\n' ∉ llast.data ∧ hasNonWS llast.data :=
            hmemF llast (Or.inr (Or.inl (by rw [hLS]; simp)))
          have hxp : '\n' ∉ x.data ∧ hasNonWS x.data :=
            hmemF x (Or.inr (Or.inr (by rw [hXB]; simp)))
          constructor
          · rw [strData_append]
            intro hm
            rcases List.mem_append.mp hm with hm2 | hm2
            · exact hlp.1 hm2
            · exact hxp.1 hm2
          · obtain ⟨c, hc, hw⟩ := hxp.2
            exact ⟨c, by rw [strData_append]; exact List.mem_append.mpr (Or.inr hc), hw⟩
        · exact hmemF l (Or.inr (Or.inr (by rw [hXB]; simp [h3])))
  · -- one line fewer than the flipped region
    have hlenF := hperm3.length_eq
    rw [List.length_append, List.length_append] at hlenF
    rw [hLS] at hlenF
    rw [hXB] at hlenF
    simp only [List.length_append, List.length_cons, List.length_nil] at hlenF ⊢
    omega

theorem textToInsert_eof_repr (doc : List String) (clicked : Nat)
    (hNL : ∀ l ∈ doc, '\n' ∉ l.data)
    (hclick : listItemTest (getLine doc clicked) = true)
    (hEnd : overallEndOf doc clicked + 1 = doc.length) :
    ∃ Lf : List String,
      textToInsertOf doc clicked = joinNL Lf ∧
      Lf ≠ [] ∧
      (∀ l ∈ Lf, '\n' ∉ l.data ∧ hasNonWS l.data) ∧
      (List.Perm Lf (flippedLines doc clicked (blockStartOf doc clicked)
          (overallEndOf doc clicked)) ∨
        Lf.length + 1 = (flippedLines doc clicked (blockStartOf doc clicked)
          (overallEndOf doc clicked)).length) := by
  obtain ⟨_, pre, spl, hspans, hsple, hprelt⟩ := peerSpansOf_tiling doc clicked hclick
  by_cases hb : spl.2.2 = true
  · have hpi : (peerSpansOf doc clicked).filter (fun sp => sp.2.2 = false) ++
        (peerSpansOf doc clicked).filter (fun sp => sp.2.2 = true) =
        (pre.filter (fun sp => sp.2.2 = false) ++
          pre.filter (fun sp => sp.2.2 = true)) ++ [spl] := by
      rw [hspans, List.filter_append, List.filter_append]
      rw [show List.filter (fun sp => decide (sp.2.2 = false)) [spl] = [] by
        simp [List.filter_cons, hb]]
      rw [show List.filter (fun sp => decide (sp.2.2 = true)) [spl] = [spl] by
        simp [List.filter_cons, hb]]
      rw [List.append_nil, ← List.append_assoc]
    obtain ⟨Lf, h1, h2, h3, h4⟩ := textToInsert_eof_nomerge doc clicked hNL hclick hEnd
      _ pre spl hspans hsple hprelt hpi (filters_perm pre)
    exact ⟨Lf, h1, h2, h3, Or.inl h4⟩
  · have hbf : spl.2.2 = false := by
      cases h : spl.2.2
      · rfl
      · exact absurd h hb
    by_cases hT : pre.filter (fun sp => sp.2.2 = true) = []
    · have hpi : (peerSpansOf doc clicked).filter (fun sp => sp.2.2 = false) ++
          (peerSpansOf doc clicked).filter (fun sp => sp.2.2 = true) =
          pre.filter (fun sp => sp.2.2 = false) ++ [spl] := by
        rw [hspans, List.filter_append, List.filter_append]
        rw [show List.filter (fun sp => decide (sp.2.2 = false)) [spl] = [spl] by
          simp [List.filter_cons, hbf]]
        rw [show List.filter (fun sp => decide (sp.2.2 = true)) [spl] = [] by
          simp [List.filter_cons, hbf]]
        rw [hT, List.append_nil, List.append_nil]
      have hAperm : List.Perm (pre.filter (fun sp => sp.2.2 = false)) pre := by
        have hp := filters_perm pre
        rw [hT, List.append_nil] at hp
        exact hp
      obtain ⟨Lf, h1, h2, h3, h4⟩ := textToInsert_eof_nomerge doc clicked hNL hclick hEnd
        _ pre spl hspans hsple hprelt hpi hAperm
      exact ⟨Lf, h1, h2, h3, Or.inl h4⟩
    · obtain ⟨Lf, h1, h2, h3, h4⟩ := textToInsert_eof_merge doc clicked hNL hclick hEnd
        pre spl hspans hsple hprelt hbf hT
      exact ⟨Lf, h1, h2, h3, Or.inr h4⟩

theorem pair_multiset_cases {α : Type} {a b c d : α}
    (h : (a ::ₘ {b} : Multiset α) = c ::ₘ {d}) :
    (a = c ∧ b = d) ∨ (a = d ∧ b = c) := by
  rcases Multiset.cons_eq_cons.mp h with ⟨h1, h2⟩ | ⟨h1, cs, h2, h3⟩
  · exact Or.inl ⟨h1, Multiset.singleton_inj.mp h2⟩
  · have hcs : cs = 0 := by
      apply Multiset.card_eq_zero.mp
      have hcard := congrArg Multiset.card h2
      simp only [Multiset.card_cons, Multiset.card_singleton] at hcard
      omega
    subst hcs
    exact Or.inr ⟨(Multiset.singleton_inj.mp h3).symm,
      Multiset.singleton_inj.mp h2⟩

theorem triple_multiset_cases {α : Type} {a b c x y z : α}
    (h : (a ::ₘ b ::ₘ {c} : Multiset α) = x ::ₘ y ::ₘ {z}) :
    (a = x ∧ ((b = y ∧ c = z) ∨ (b = z ∧ c = y))) ∨
    (a = y ∧ ((b = x ∧ c = z) ∨ (b = z ∧ c = x))) ∨
    (a = z ∧ ((b = x ∧ c = y) ∨ (b = y ∧ c = x))) := by
  rcases Multiset.cons_eq_cons.mp h with ⟨h1, h2⟩ | ⟨h1, cs, h2, h3⟩
  · exact Or.inl ⟨h1, pair_multiset_cases h2⟩
  · have hcs : ∃ w, cs = {w} := by
      apply Multiset.card_eq_one.mp
      have hcard := congrArg Multiset.card h2
      simp only [Multiset.card_cons, Multiset.card_singleton] at hcard
      omega
    obtain ⟨w, rfl⟩ := hcs
    rcases pair_multiset_cases h2 with ⟨hb, hc⟩ | ⟨hb, hc⟩ <;>
      rcases pair_multiset_cases h3.symm with ⟨hy, hz⟩ | ⟨hy, hz⟩
    · exact Or.inr (Or.inl ⟨hy, Or.inl ⟨hb, hc.trans hz⟩⟩)
    · exact Or.inr (Or.inr ⟨hy, Or.inl ⟨hb, hc.trans hz⟩⟩)
    · exact Or.inr (Or.inl ⟨hy, Or.inr ⟨hb.trans hz, hc⟩⟩)
    · exact Or.inr (Or.inr ⟨hy, Or.inr ⟨hb.trans hz, hc⟩⟩)

theorem coreEq_of_stripL {a b : String} (h : stripLData a.data = stripLData b.data) :
    jsTrimData a.data = jsTrimData b.data := by
  show stripRData (stripLData a.data) = stripRData (stripLData b.data)
  rw [h]

theorem coreEq_of_stripR {a b : String} (ha : hasNonWS a.data) (hb : hasNonWS b.data)
    (h : stripRData a.data = stripRData b.data) :
    jsTrimData a.data = jsTrimData b.data := by
  rw [← stripL_stripR_eq_jsTrim ha, ← stripL_stripR_eq_jsTrim hb, h]

theorem triple_core_contradiction {f0 fl rc r0 rl frc : String}
    (hc0 : jsTrimData f0.data = jsTrimData r0.data)
    (hcl : jsTrimData fl.data = jsTrimData rl.data)
    (hne : jsTrimData frc.data ≠ jsTrimData rc.data)
    (hnee : frc ≠ rc)
    (h : (f0 ::ₘ fl ::ₘ {rc} : Multiset String) = r0 ::ₘ rl ::ₘ {frc}) : False := by
  rcases triple_multiset_cases h with ⟨h1, h2 | h2⟩ | ⟨h1, h2 | h2⟩ | ⟨h1, h2 | h2⟩
  · exact hnee h2.2.symm
  · -- f0 = r0, fl = frc, rc = rl
    apply hne
    rw [← h2.1, hcl, ← h2.2]
  · exact hnee h2.2.symm
  · -- f0 = rl, fl = frc, rc = r0
    apply hne
    rw [← h2.1, hcl, ← h1, hc0, ← h2.2]
  · -- f0 = frc, fl = r0, rc = rl
    apply hne
    rw [← h1, hc0, ← h2.1, hcl, ← h2.2]
  · -- f0 = frc, fl = rl, rc = r0
    apply hne
    rw [← h1, hc0, ← h2.2]

theorem lines_eq_of_chunks_perm (Lf F R tk dp : List String) (rc : String) (b : Bool)
    (hR : R = tk ++ rc :: dp)
    (hF : F = tk ++ flipLine rc b :: dp)
    (hperm : List.Perm Lf F)
    (hRprops : ∀ l ∈ R, '\n' ∉ l.data ∧ hasNonWS l.data)
    (hLfprops : ∀ l ∈ Lf, '\n' ∉ l.data ∧ hasNonWS l.data)
    (hchunks : trimChunks (Lf.map String.data) = trimChunks (R.map String.data)) :
    Lf = R := by
  have hlenRF : F.length = R.length := by rw [hR, hF]; simp
  have hlenLf : Lf.length = R.length := hperm.length_eq.trans hlenRF
  have hmid1 : List.Perm (F ++ [rc]) (rc :: (flipLine rc b :: (tk ++ dp))) := by
    refine List.Perm.trans (List.perm_append_singleton rc F) ?_
    rw [hF]
    exact List.Perm.cons rc List.perm_middle
  have hmid2 : List.Perm (R ++ [flipLine rc b]) (rc :: (flipLine rc b :: (tk ++ dp))) := by
    refine List.Perm.trans (List.perm_append_singleton (flipLine rc b) R) ?_
    rw [hR]
    refine List.Perm.trans (List.Perm.cons (flipLine rc b) List.perm_middle) ?_
    exact List.Perm.swap rc (flipLine rc b) (tk ++ dp)
  have hmultList : List.Perm (Lf ++ [rc]) (R ++ [flipLine rc b]) :=
    ((hperm.append_right [rc]).trans hmid1).trans hmid2.symm
  have hRne : R ≠ [] := by
    rw [hR]
    intro hh
    exact absurd (List.append_eq_nil.mp hh).2 (by simp)
  obtain ⟨r0, R', hR0⟩ := List.exists_cons_of_ne_nil hRne
  rcases List.eq_nil_or_concat R' with rfl | ⟨rmid, rl, hR'⟩
  · -- the region is a single line, necessarily the clicked one
    have htk : tk = [] ∧ rc = r0 ∧ dp = [] := by
      rw [hR0] at hR
      cases tk with
      | nil =>
        simp only [List.nil_append, List.cons.injEq] at hR
        exact ⟨rfl, hR.1.symm, hR.2.symm⟩
      | cons a tk' =>
        simp only [List.cons_append, List.cons.injEq] at hR
        exact absurd hR.2.symm (by simp)
    obtain ⟨rfl, rfl, rfl⟩ := htk
    have hFs : F = [flipLine rc b] := by rw [hF]; rfl
    have hLfs : Lf = [flipLine rc b] := by
      apply List.perm_singleton.mp
      rw [← hFs]
      exact hperm
    by_cases heff : flipLine rc b = rc
    · rw [hLfs, heff, hR0]
    · exfalso
      apply jsTrim_flipLine_ne heff
      rw [hLfs, hR0] at hchunks
      rw [show ([flipLine rc b].map String.data) = [(flipLine rc b).data] from rfl,
        show ([rc].map String.data) = [rc.data] from rfl,
        trimChunks_single, trimChunks_single] at hchunks
      simp only [List.cons.injEq, and_true] at hchunks
      exact hchunks
  · rw [List.concat_eq_append] at hR'
    have hLfne : Lf ≠ [] := by
      intro hh
      rw [hh] at hlenLf
      rw [hR0, hR'] at hlenLf
      simp at hlenLf
    obtain ⟨f0, Lf', hLf0⟩ := List.exists_cons_of_ne_nil hLfne
    have hLf'ne : Lf' ≠ [] := by
      intro hh
      rw [hLf0, hh, hR0, hR'] at hlenLf
      simp at hlenLf
    obtain ⟨lmid, fl, hLf'⟩ := (List.eq_nil_or_concat Lf').resolve_left hLf'ne
    rw [List.concat_eq_append] at hLf'
    -- the chunk equation gives the three string relations
    have hch : stripLData f0.data :: lmid.map String.data ++ [stripRData fl.data] =
        stripLData r0.data :: rmid.map String.data ++ [stripRData rl.data] := by
      have e1 : Lf.map String.data = f0.data :: lmid.map String.data ++ [fl.data] := by
        rw [hLf0, hLf']
        simp
      have e2 : R.map String.data = r0.data :: rmid.map String.data ++ [rl.data] := by
        rw [hR0, hR']
        simp
      rw [e1, e2, trimChunks_concat, trimChunks_concat] at hchunks
      exact hchunks
    have hE1 : stripLData f0.data = stripLData r0.data := by
      injection hch with e1 e2
    have htails : lmid.map String.data ++ [stripRData fl.data] =
        rmid.map String.data ++ [stripRData rl.data] := by
      injection hch with e1 e2
    have hE2 : lmid = rmid := by
      apply map_data_inj
      have hdl := congrArg List.dropLast htails
      simpa using hdl
    have hE3 : stripRData fl.data = stripRData rl.data := by
      have hgl := congrArg List.getLast? htails
      rw [List.getLast?_concat, List.getLast?_concat] at hgl
      simpa only [Option.some.injEq] using hgl
    have hf0mem : f0 ∈ Lf := by rw [hLf0]; simp
    have hflmem : fl ∈ Lf := by rw [hLf0, hLf']; simp
    have hr0mem : r0 ∈ R := by rw [hR0]; simp
    have hrlmem : rl ∈ R := by rw [hR0, hR']; simp
    have hrcmem : rc ∈ R := by rw [hR]; simp
    have hc0 : jsTrimData f0.data = jsTrimData r0.data := coreEq_of_stripL hE1
    have hcl : jsTrimData fl.data = jsTrimData rl.data :=
      coreEq_of_stripR (hLfprops fl hflmem).2 (hRprops rl hrlmem).2 hE3
    -- the three-element multiset equation
    have hm := Multiset.coe_eq_coe.mpr hmultList
    rw [hLf0, hLf', hE2, hR0, hR'] at hm
    have hLside : (↑((f0 :: (rmid ++ [fl])) ++ [rc]) : Multiset String) =
        ((f0 ::ₘ fl ::ₘ {rc}) : Multiset String) + ↑rmid := by
      show (f0 ::ₘ (↑rmid + (fl ::ₘ 0))) + (rc ::ₘ (0 : Multiset String)) = _
      simp only [← Multiset.singleton_add]
      abel
    have hRside : (↑((r0 :: (rmid ++ [rl])) ++ [flipLine rc b]) : Multiset String) =
        ((r0 ::ₘ rl ::ₘ {flipLine rc b}) : Multiset String) + ↑rmid := by
      show (r0 ::ₘ (↑rmid + (rl ::ₘ 0))) + (flipLine rc b ::ₘ (0 : Multiset String)) = _
      simp only [← Multiset.singleton_add]
      abel
    rw [hLside, hRside] at hm
    have htrip : (f0 ::ₘ fl ::ₘ {rc} : Multiset String) =
        r0 ::ₘ rl ::ₘ {flipLine rc b} := add_right_cancel hm
    by_cases heff : flipLine rc b = rc
    · -- no effective change: the permuted list equals the region
      rw [heff] at htrip
      have hpair : (f0 ::ₘ {fl} : Multiset String) = r0 ::ₘ {rl} := by
        have h1 : ((f0 ::ₘ {fl}) + {rc} : Multiset String) = (r0 ::ₘ {rl}) + {rc} := by
          rw [Multiset.cons_add, Multiset.cons_add, Multiset.singleton_add,
            Multiset.singleton_add]
          exact htrip
        exact add_right_cancel h1
      rcases pair_multiset_cases hpair with ⟨e1, e2⟩ | ⟨e1, e2⟩
      · rw [hLf0, hLf', hR0, hR', hE2, e1, e2]
      · have hr0rl : r0 = rl := by
          apply strEq_of_data
          apply eq_of_stripL_stripR (hRprops r0 hr0mem).2
          · rw [← e1, hE1]
          · rw [← e2]
            exact hE3
        rw [hLf0, hLf', hR0, hR', hE2, e1, e2, hr0rl]
    · exact absurd htrip.symm (fun hh =>
        triple_core_contradiction hc0 hcl (jsTrim_flipLine_ne heff) heff hh.symm)

theorem sort_none_iff (g : Bool) (fm : FMEntry) (doc : List String) (clicked : Nat)
    (heff : effectiveSortingEnabled g fm doc clicked = true)
    (hclick : listItemTest (getLine doc clicked) = true) :
    (sortCheckboxesAroundClick g fm doc clicked = none ↔
      jsTrim (textToInsertOf doc clicked) = jsTrim (originalTextOf doc clicked)) := by
  unfold sortCheckboxesAroundClick
  rw [if_neg (by simp [heff]), if_neg (by simp [hclick])]
  by_cases h : jsTrim (textToInsertOf doc clicked) = jsTrim (originalTextOf doc clicked)
  · rw [if_pos h]
    simp [h]
  · rw [if_neg h]
    simp [h]

theorem regionLines_props (doc : List String) (clicked : Nat)
    (hNL : ∀ l ∈ doc, '\n' ∉ l.data)
    (hclick : listItemTest (getLine doc clicked) = true) :
    ∀ l ∈ regionLines doc clicked, '\n' ∉ l.data ∧ hasNonWS l.data := by
  intro l hl
  unfold regionLines at hl
  rcases List.mem_map.mp hl with ⟨k, hk, rfl⟩
  have hkb := List.mem_range'_1.mp hk
  have hreg := region_facts doc clicked hclick k (by omega) (by omega)
  exact ⟨getLine_no_nl doc hNL k, listItem_hasNonWS hreg.1⟩

theorem regionLines_ne_nil (doc : List String) (clicked : Nat) :
    regionLines doc clicked ≠ [] := by
  unfold regionLines
  intro hh
  rw [List.map_eq_nil_iff, List.range'_eq_nil] at hh
  have h1 : blockStartOf doc clicked ≤ clicked := findBlockStart_le doc _ clicked
  have h2 := blockEndOf_ge doc clicked
  have h3 : blockEndOf doc clicked ≤ overallEndOf doc clicked :=
    blockEnd_le_overallEnd doc _ _
  omega

theorem regionF_split (doc : List String) (clicked : Nat)
    (hclick : listItemTest (getLine doc clicked) = true) :
    ∃ tk dp, regionLines doc clicked = tk ++ getLine doc clicked :: dp ∧
      flippedLines doc clicked (blockStartOf doc clicked) (overallEndOf doc clicked) =
        tk ++ flipLine (getLine doc clicked) (isNowTickedOf doc clicked) :: dp := by
  have h1 : blockStartOf doc clicked ≤ clicked := findBlockStart_le doc _ clicked
  have h2 := blockEndOf_ge doc clicked
  have h3 : blockEndOf doc clicked ≤ overallEndOf doc clicked :=
    blockEnd_le_overallEnd doc _ _
  have hsplit : List.range' (blockStartOf doc clicked)
      (overallEndOf doc clicked + 1 - blockStartOf doc clicked) =
      List.range' (blockStartOf doc clicked) (clicked - blockStartOf doc clicked) ++
        clicked :: List.range' (clicked + 1) (overallEndOf doc clicked - clicked) := by
    have hr := List.range'_append (blockStartOf doc clicked)
      (clicked - blockStartOf doc clicked) (overallEndOf doc clicked + 1 - clicked) 1
    rw [show blockStartOf doc clicked +
      1 * (clicked - blockStartOf doc clicked) = clicked from by omega] at hr
    rw [show overallEndOf doc clicked + 1 - clicked =
      (overallEndOf doc clicked - clicked) + 1 from by omega, List.range'_succ] at hr
    rw [hr]
    congr 1
    omega
  refine ⟨(List.range' (blockStartOf doc clicked)
      (clicked - blockStartOf doc clicked)).map (getLine doc),
    (List.range' (clicked + 1) (overallEndOf doc clicked - clicked)).map (getLine doc),
    ?_, ?_⟩
  · unfold regionLines
    rw [hsplit, List.map_append, List.map_cons]
  · unfold flippedLines
    rw [hsplit, List.map_append, List.map_cons, if_pos rfl]
    congr 1
    · apply List.map_congr_left
      intro k hk
      have hkb := List.mem_range'_1.mp hk
      rw [if_neg (by omega)]
    · congr 1
      apply List.map_congr_left
      intro k hk
      have hkb := List.mem_range'_1.mp hk
      rw [if_neg (by omega)]

theorem eqIgnTrailNL_linesToText {X Y : List String} (hX : X ≠ []) (hY : Y ≠ [])
    (hXnl : ∀ l ∈ X, '\n' ∉ l.data) (hYnl : ∀ l ∈ Y, '\n' ∉ l.data) :
    (eqIgnTrailNL (linesToText X) (linesToText Y) ↔ X = Y) := by
  unfold eqIgnTrailNL
  rw [dropTrailNL_linesToText hX, dropTrailNL_linesToText hY]
  constructor
  · exact joinNL_inj hX hY hXnl hYnl
  · intro h
    rw [h]

theorem dropTrailNL_joinNL {X : List String} (hX : X ≠ [])
    (hXp : ∀ l ∈ X, '\n' ∉ l.data ∧ hasNonWS l.data) :
    dropTrailNL (joinNL X) = joinNL X := by
  obtain ⟨X', xl, hconc⟩ := (List.eq_nil_or_concat X).resolve_left hX
  rw [List.concat_eq_append] at hconc
  apply dropTrailNL_of_endsNL_false
  rw [hconc]
  exact endsWithNL_joinNL_false X' xl
    (ne_nil_of_hasNonWS (hXp xl (by rw [hconc]; simp)).2)
    (hXp xl (by rw [hconc]; simp)).1

theorem eqIgnTrailNL_joinNL {X Y : List String} (hX : X ≠ []) (hY : Y ≠ [])
    (hXp : ∀ l ∈ X, '\n' ∉ l.data ∧ hasNonWS l.data)
    (hYp : ∀ l ∈ Y, '\n' ∉ l.data ∧ hasNonWS l.data) :
    (eqIgnTrailNL (joinNL X) (joinNL Y) ↔ X = Y) := by
  unfold eqIgnTrailNL
  rw [dropTrailNL_joinNL hX hXp, dropTrailNL_joinNL hY hYp]
  constructor
  · exact joinNL_inj hX hY (fun l hl => (hXp l hl).1) (fun l hl => (hYp l hl).1)
  · intro h
    rw [h]

theorem jsTrim_linesToText_eq_iff {X Y : List String} (hX : X ≠ []) (hY : Y ≠ [])
    (hXp : ∀ l ∈ X, '\n' ∉ l.data ∧ hasNonWS l.data)
    (hYp : ∀ l ∈ Y, '\n' ∉ l.data ∧ hasNonWS l.data) :
    (jsTrim (linesToText X) = jsTrim (linesToText Y) ↔
      trimChunks (X.map String.data) = trimChunks (Y.map String.data)) := by
  rw [linesToText_eq_joinNL hX, linesToText_eq_joinNL hY, jsTrim_append_nl,
    jsTrim_append_nl]
  exact jsTrim_joinNL_eq_iff hX hY hXp hYp

/-- C6: for a click on a list-item line with sorting effectively enabled, on a
document whose lines hold no embedded newline, the engine performs no write
exactly when the normalized replacement text is textually equivalent to the
original text of the replaced range ignoring only a possible trailing-newline
difference; whenever the two texts differ by more than a trailing newline (for
example only in leading whitespace), a replacement is issued. -/
theorem c6_skip_iff_trailing_newline_equivalence (g : Bool) (fm : FMEntry)
    (doc : List String) (clicked : Nat)
    (hNL : ∀ l ∈ doc, '\n' ∉ l.data)
    (heff : effectiveSortingEnabled g fm doc clicked = true)
    (hclick : listItemTest (getLine doc clicked) = true) :
    (sortCheckboxesAroundClick g fm doc clicked = none ↔
      eqIgnTrailNL (textToInsertOf doc clicked) (originalTextOf doc clicked)) := by
  rw [sort_none_iff g fm doc clicked heff hclick]
  have hlen := clicked_lt_length hclick
  have hoelen := overallEndOf_lt_length hlen
  have hRne := regionLines_ne_nil doc clicked
  have hRprops := regionLines_props doc clicked hNL hclick
  have hFprops := flippedLines_props doc clicked hNL hclick
  obtain ⟨tk, dp, hRsplit, hFsplit⟩ := regionF_split doc clicked hclick
  by_cases hEnd : overallEndOf doc clicked + 1 < doc.length
  · -- the replaced range is followed by further document content
    have hT := textToInsert_mid_repr doc clicked hNL hclick hEnd
    have hO := originalTextOf_mid doc clicked hEnd
    have hLfperm := bucketLines_perm_flipped doc clicked hclick
    have hLfprops : ∀ l ∈ bucketLines doc clicked false ++ bucketLines doc clicked true,
        '\n' ∉ l.data ∧ hasNonWS l.data :=
      fun l hl => hFprops l (hLfperm.mem_iff.mp hl)
    have hLfne := allLines_ne_nil doc clicked hclick
    rw [hT, hO,
      eqIgnTrailNL_linesToText hLfne hRne (fun l hl => (hLfprops l hl).1)
        (fun l hl => (hRprops l hl).1),
      jsTrim_linesToText_eq_iff hLfne hRne hLfprops hRprops]
    constructor
    · intro hch
      exact lines_eq_of_chunks_perm
        (bucketLines doc clicked false ++ bucketLines doc clicked true)
        (flippedLines doc clicked (blockStartOf doc clicked)
          (overallEndOf doc clicked))
        (regionLines doc clicked) tk dp (getLine doc clicked)
        (isNowTickedOf doc clicked) hRsplit hFsplit hLfperm hRprops hLfprops hch
    · intro he
      rw [he]
  · -- the replaced range reaches the end of the document
    have hEnd2 : overallEndOf doc clicked + 1 = doc.length := by omega
    obtain ⟨Lf, hT, hLfne, hLfprops, hdisj⟩ :=
      textToInsert_eof_repr doc clicked hNL hclick hEnd2
    have hO := originalTextOf_eof doc clicked hclick hEnd2
    rw [hT, hO, eqIgnTrailNL_joinNL hLfne hRne hLfprops hRprops,
      jsTrim_joinNL_eq_iff hLfne hRne hLfprops hRprops]
    rcases hdisj with hperm | hlen1
    · constructor
      · intro hch
        exact lines_eq_of_chunks_perm Lf
          (flippedLines doc clicked (blockStartOf doc clicked)
            (overallEndOf doc clicked))
          (regionLines doc clicked) tk dp (getLine doc clicked)
          (isNowTickedOf doc clicked) hRsplit hFsplit hperm hRprops hLfprops hch
      · intro he
        rw [he]
    · -- a reordered end-of-document block merges two lines: both sides fail
      have hlenR : (regionLines doc clicked).length =
          (flippedLines doc clicked (blockStartOf doc clicked)
            (overallEndOf doc clicked)).length := by
        unfold regionLines flippedLines
        rw [List.length_map, List.length_map]
      constructor
      · intro hch
        exfalso
        have hle := congrArg List.length hch
        rw [trimChunks_length, trimChunks_length, List.length_map,
          List.length_map] at hle
        omega
      · intro he
        exfalso
        have hle := congrArg List.length he
        omega

theorem c6_skip_iff_trailing_newline_equivalence_witness :
    (∀ l ∈ ["- [ ] a"], '\n' ∉ l.data) ∧
    effectiveSortingEnabled true FMEntry.missing ["- [ ] a"] 0 = true ∧
    listItemTest (getLine ["- [ ] a"] 0) = true ∧
    (sortCheckboxesAroundClick true FMEntry.missing ["- [ ] a"] 0 = none ↔
      eqIgnTrailNL (textToInsertOf ["- [ ] a"] 0) (originalTextOf ["- [ ] a"] 0)) :=
  ⟨by decide, by decide, by decide,
    c6_skip_iff_trailing_newline_equivalence true FMEntry.missing ["- [ ] a"] 0
      (by decide) (by decide) (by decide)⟩

end CheckboxSort
